import Mathlib

/-!
Verification of the face tracking and temporal-smoothing engine.

Shallow embedding of `src/backend/services/face_tracker.py` (class
`FaceTracker`): the geometric overlap calculator (`calculate_iou`), the
greedy detection-to-track matcher (`match_faces_to_tracks`), the temporal
smoother (`smooth_age_prediction`, `smooth_emotion_prediction`) and the
track registry (`update_tracks`).

Python floats are modelled as rationals (`ℚ`), Python dicts keyed by track
id as insertion-ordered association lists, the emotion-probability dict as
an association list of `String × ℚ`, and exceptions (`KeyError`,
`ValueError` from `max()` on an empty sequence) as `Option`/`none` results
threaded through the state.
-/

set_option maxHeartbeats 1000000

namespace FaceTrackerModel

/-- One entry of a track's `age_history`: the dict
`{'age': ..., 'confidence': ..., 'frame': ...}`. -/
structure AgeSample where
  age : ℚ
  confidence : ℚ
  frame : ℕ
deriving DecidableEq, Repr

/-- One entry of a track's `emotion_history`: the dict
`{'emotions': ..., 'dominant_emotion': ..., 'confidence': ..., 'frame': ...}`. -/
structure EmoSample where
  emotions : List (String × ℚ)
  dominant_emotion : String
  confidence : ℚ
  frame : ℕ
deriving DecidableEq, Repr

/-- A track record as stored in `self.tracks[track_id]`. -/
structure Track where
  age_history : List AgeSample
  emotion_history : List EmoSample
  last_bbox : List ℚ
  last_seen : ℕ
  created_frame : ℕ
deriving DecidableEq, Repr

/-- A detection dict as consumed and produced by `update_tracks`.  Optional
fields model keys that may be absent from the Python dict. -/
structure Detection where
  bbox : Option (List ℚ) := none
  confidence : Option ℚ := none
  age : Option ℚ := none
  age_confidence : Option ℚ := none
  emotions : Option (List (String × ℚ)) := none
  dominant_emotion : Option String := none
  emotion_confidence : Option ℚ := none
  track_id : Option ℕ := none
  track_age : Option ℕ := none
deriving DecidableEq, Repr

/-- The `FaceTracker` object: constructor configuration plus the mutable
fields `tracks` (an insertion-ordered dict), `next_track_id`, `frame_count`. -/
structure FaceTracker where
  max_tracks : ℕ
  max_age_history : ℕ
  max_emotion_history : ℕ
  iou_threshold : ℚ
  max_missing_frames : ℕ
  tracks : List (ℕ × Track)
  next_track_id : ℕ
  frame_count : ℕ
deriving DecidableEq, Repr

/-! ## Geometric overlap calculator (`calculate_iou`) -/

/-- The body of `calculate_iou` once both boxes have been unpacked into
`x, y, w, h` quadruples. -/
def iouCore (x1 y1 w1 h1 x2 y2 w2 h2 : ℚ) : ℚ :=
  let xLeft := max x1 x2
  let yTop := max y1 y2
  let xRight := min (x1 + w1) (x2 + w2)
  let yBottom := min (y1 + h1) (y2 + h2)
  if xRight < xLeft ∨ yBottom < yTop then 0
  else
    let inter := (xRight - xLeft) * (yBottom - yTop)
    let union := w1 * h1 + w2 * h2 - inter
    if union = 0 then 0 else inter / union

/-- Unpacking `x, y, w, h = box`: succeeds exactly on length-4 lists; any
other shape raises in Python and is caught by the `except` clause. -/
def toQuad : List ℚ → Option (ℚ × ℚ × ℚ × ℚ)
  | [x, y, w, h] => some (x, y, w, h)
  | _ => none

/-- `calculate_iou(box1, box2)`: IoU of two `[x, y, w, h]` boxes; any
exception (e.g. malformed box shape) is caught and `0.0` returned. -/
def calculate_iou (box1 box2 : List ℚ) : ℚ :=
  match toQuad box1, toQuad box2 with
  | some (x1, y1, w1, h1), some (x2, y2, w2, h2) => iouCore x1 y1 w1 h1 x2 y2 w2 h2
  | _, _ => 0

/-! ## Temporal smoother -/

/-- The weight `pred['confidence'] * recency_weight` given to one retained
age sample, with `recency_weight = 1.0 - (frame_count - pred['frame']) /
max_age_history` (no clamping appears in the source). -/
def ageWeight (max_age_history frame_count : ℕ) (p : AgeSample) : ℚ :=
  p.confidence * (1 - ((frame_count : ℚ) - (p.frame : ℚ)) / (max_age_history : ℚ))

/-- `smooth_age_prediction(track_id, new_age, confidence)`, with the
track's `age_history` and the object fields `max_age_history` /
`frame_count` passed explicitly.  Returns the mutated history together
with the `(smoothed_age, avg_confidence)` pair the method returns. -/
def smooth_age_prediction (max_age_history frame_count : ℕ)
    (hist0 : List AgeSample) (new_age confidence : ℚ) :
    List AgeSample × ℚ × ℚ :=
  let hist1 := hist0 ++ [⟨new_age, confidence, frame_count⟩]
  let hist := if hist1.length > max_age_history then hist1.tail else hist1
  let total_weight := (hist.map (ageWeight max_age_history frame_count)).sum
  let weighted_sum :=
    (hist.map (fun p => p.age * ageWeight max_age_history frame_count p)).sum
  if total_weight > 0 then
    (hist, weighted_sum / total_weight,
      (hist.map (·.confidence)).sum / (hist.length : ℚ))
  else
    (hist, new_age, confidence)

/-- The fixed `emotion_names` list. -/
def emotion_names : List String :=
  ["angry", "disgust", "fear", "happy", "sad", "surprise", "neutral"]

/-- Python's `max(items, key=lambda x: x[1])`: first item attaining the
maximal value; raises `ValueError` (here `none`) on an empty sequence. -/
def argmaxPy : List (String × ℚ) → Option (String × ℚ)
  | [] => none
  | x :: xs => some (xs.foldl (fun best y => if y.2 > best.2 then y else best) x)

/-- The weight given to one retained emotion sample. -/
def emoWeight (max_emotion_history frame_count : ℕ) (p : EmoSample) : ℚ :=
  p.confidence * (1 - ((frame_count : ℚ) - (p.frame : ℚ)) / (max_emotion_history : ℚ))

/-- `smooth_emotion_prediction(track_id, emotions, dominant_emotion,
confidence)` with explicit state.  Returns the mutated `emotion_history`
and, unless the final `max(...)` raises `ValueError` on an empty map
(`none`), the `(smoothed_emotions, smoothed_dominant, smoothed_confidence)`
triple. -/
def smooth_emotion_prediction (max_emotion_history frame_count : ℕ)
    (hist0 : List EmoSample) (emotions : List (String × ℚ))
    (dominant_emotion : String) (confidence : ℚ) :
    List EmoSample × Option (List (String × ℚ) × String × ℚ) :=
  let hist1 := hist0 ++ [⟨emotions, dominant_emotion, confidence, frame_count⟩]
  let hist := if hist1.length > max_emotion_history then hist1.tail else hist1
  let total_weight := (hist.map (emoWeight max_emotion_history frame_count)).sum
  let score := fun (name : String) =>
    (hist.map (fun p =>
      match p.emotions.lookup name with
      | some v => v * emoWeight max_emotion_history frame_count p
      | none => 0)).sum
  let smoothed : List (String × ℚ) :=
    if total_weight > 0 then emotion_names.map (fun n => (n, score n / total_weight))
    else emotions
  match argmaxPy smoothed with
  | some best => (hist, some (smoothed, best.1, best.2))
  | none => (hist, none)

/-! ## Detection-to-track matcher (`match_faces_to_tracks`) -/

/-- The default bbox `[0, 0, 0, 0]` substituted for a missing `bbox` key. -/
def defaultBBox : List ℚ := [0, 0, 0, 0]

/-- The inner loop of `match_faces_to_tracks`: fold over the track dict
carrying `(best_track_id, best_iou)`, skipping tracks already claimed and
updating on `iou > best_iou and iou > self.iou_threshold`. -/
def bestTrack (τ : ℚ) (bbox : List ℚ) (used : List ℕ) :
    Option ℕ × ℚ → List (ℕ × Track) → Option ℕ × ℚ
  | acc, [] => acc
  | acc, p :: rest =>
    if p.1 ∈ used then bestTrack τ bbox used acc rest
    else
      let iou := calculate_iou bbox p.2.last_bbox
      if iou > acc.2 ∧ iou > τ then bestTrack τ bbox used (some p.1, iou) rest
      else bestTrack τ bbox used acc rest

/-- The outer loop of `match_faces_to_tracks`: one `(face_idx, best_track_id)`
pair per face, in input order, adding each claimed track id to `used`. -/
def matchLoop (τ : ℚ) (tracks : List (ℕ × Track)) :
    List ℕ → ℕ → List Detection → List (ℕ × Option ℕ)
  | _, _, [] => []
  | used, idx, face :: rest =>
    let bbox := face.bbox.getD defaultBBox
    let best := (bestTrack τ bbox used (none, 0) tracks).1
    (idx, best) ::
      matchLoop τ tracks (match best with | some id => id :: used | none => used)
        (idx + 1) rest

/-- `match_faces_to_tracks(faces)`. -/
def match_faces_to_tracks (t : FaceTracker) (faces : List Detection) :
    List (ℕ × Option ℕ) :=
  matchLoop t.iou_threshold t.tracks [] 0 faces

/-- The track ids assigned by a match result (the `used_track_ids` set at
the end of the pass). -/
def assignedIds (ms : List (ℕ × Option ℕ)) : List ℕ :=
  ms.filterMap (·.2)

/-! ## Track registry (`update_tracks`) -/

/-- Python's round-half-even, as used by `round(x, 1)`. -/
def roundHalfEven (x : ℚ) : ℤ :=
  let f := ⌊x⌋
  let r := x - (f : ℚ)
  if r < 1 / 2 then f
  else if r > 1 / 2 then f + 1
  else if f % 2 = 0 then f else f + 1

/-- `round(x, 1)`: round to one decimal place. -/
def roundPy1 (x : ℚ) : ℚ := (roundHalfEven (10 * x) : ℚ) / 10

/-- `self.tracks[track_id] = value` on an insertion-ordered dict: replace
in place when the key exists, append otherwise. -/
def setTrack : List (ℕ × Track) → ℕ → Track → List (ℕ × Track)
  | [], id, tr => [(id, tr)]
  | p :: rest, id, tr =>
    if p.1 = id then (id, tr) :: rest else p :: setTrack rest id tr

/-- The body of the per-detection update once `track_id` is resolved:
update `last_bbox` / `last_seen`, run the smoothers on the fields the
detection carries, and annotate the face copy with `track_id` and
`track_age`.  Returns the updated track record and, unless emotion
smoothing raised `ValueError`, the enriched face. -/
def applyCore (max_age_history max_emotion_history frame_count id : ℕ)
    (tr : Track) (face : Detection) : Track × Option Detection :=
  let tr1 := { tr with last_bbox := face.bbox.getD defaultBBox, last_seen := frame_count }
  let ar :=
    match face.age with
    | some a =>
      let r := smooth_age_prediction max_age_history frame_count tr1.age_history a
        (face.age_confidence.getD (1 / 2))
      ({ tr1 with age_history := r.1 },
       { face with age := some (roundPy1 r.2.1), age_confidence := some r.2.2 })
    | none => (tr1, face)
  let tr2 := ar.1
  let face2 := ar.2
  match face.emotions with
  | some em =>
    let r := smooth_emotion_prediction max_emotion_history frame_count tr2.emotion_history
      em (face.dominant_emotion.getD "neutral") (face.emotion_confidence.getD (1 / 2))
    let tr3 := { tr2 with emotion_history := r.1 }
    match r.2 with
    | some smoothed =>
      (tr3, some { face2 with
        emotions := some smoothed.1
        dominant_emotion := some smoothed.2.1
        emotion_confidence := some smoothed.2.2
        track_id := some id
        track_age := some (frame_count - tr.created_frame) })
    | none => (tr3, none)
  | none =>
    (tr2, some { face2 with
      track_id := some id
      track_age := some (frame_count - tr.created_frame) })

/-- `track = self.tracks[track_id]` followed by `applyCore`, committing the
mutated track record back into the dict.  A failed lookup models
`KeyError` (unreachable from the public entry point). -/
def applyTrack (t : FaceTracker) (id : ℕ) (face : Detection) :
    FaceTracker × Option Detection :=
  match t.tracks.lookup id with
  | none => (t, none)
  | some tr =>
    let r := applyCore t.max_age_history t.max_emotion_history t.frame_count id tr face
    ({ t with tracks := setTrack t.tracks id r.1 }, r.2)

/-- A freshly created track record. -/
def newTrack (bbox : List ℚ) (frame_count : ℕ) : Track :=
  { age_history := []
    emotion_history := []
    last_bbox := bbox
    last_seen := frame_count
    created_frame := frame_count }

/-- Track creation for an unmatched detection when capacity allows:
allocate `self.next_track_id`, increment it, and install an empty track.
Returns the new state together with the allocated id. -/
def createTrack (t : FaceTracker) (face : Detection) : FaceTracker × ℕ :=
  ({ t with
      next_track_id := t.next_track_id + 1
      tracks := setTrack t.tracks t.next_track_id (newTrack (face.bbox.getD defaultBBox) t.frame_count) },
   t.next_track_id)

/-- The `for face_idx, track_id in matches` loop of `update_tracks`,
carrying the tracker state, the `active_track_ids` set and the
`updated_faces` accumulator.  A `none` third component models an
uncaught exception escaping the loop (state mutations up to that point
are kept, the remaining iterations and the output list are lost). -/
def processAll (t : FaceTracker) (active : List ℕ) (out : List Detection) :
    List (Detection × Option ℕ) → FaceTracker × List ℕ × Option (List Detection)
  | [] => (t, active, some out)
  | (face, m) :: rest =>
    match m with
    | some id =>
      match applyTrack t id face with
      | (t1, some f) => processAll t1 (id :: active) (out ++ [f]) rest
      | (t1, none) => (t1, id :: active, none)
    | none =>
      if t.tracks.length < t.max_tracks then
        match applyTrack (createTrack t face).1 (createTrack t face).2 face with
        | (t2, some f) =>
          processAll t2 ((createTrack t face).2 :: active) (out ++ [f]) rest
        | (t2, none) => (t2, (createTrack t face).2 :: active, none)
      else
        processAll t active (out ++ [face]) rest

/-- The "Remove old tracks" epilogue: drop every track that was not touched
this frame and has been missing longer than `max_missing_frames`. -/
def removeStale (t : FaceTracker) (active : List ℕ) : FaceTracker :=
  { t with tracks := t.tracks.filter (fun p =>
      active.contains p.1 || decide (t.frame_count - p.2.last_seen ≤ t.max_missing_frames)) }

/-- `update_tracks(faces)`: increment the frame counter, match, process
every detection in order, then evict stale tracks.  The second component
is `none` when the Python call would raise (in which case eviction never
runs and the partially mutated state is kept). -/
def update_tracks (t0 : FaceTracker) (faces : List Detection) :
    FaceTracker × Option (List Detection) :=
  let t := { t0 with frame_count := t0.frame_count + 1 }
  let ms := match_faces_to_tracks t faces
  let r := processAll t [] [] (faces.zip (ms.map (·.2)))
  match r.2.2 with
  | some out => (removeStale r.1 r.2.1, some out)
  | none => (r.1, none)

/-- The freshly constructed `FaceTracker(...)` object. -/
def initTracker (max_tracks max_age_history max_emotion_history : ℕ)
    (iou_threshold : ℚ) (max_missing_frames : ℕ) : FaceTracker :=
  { max_tracks := max_tracks
    max_age_history := max_age_history
    max_emotion_history := max_emotion_history
    iou_threshold := iou_threshold
    max_missing_frames := max_missing_frames
    tracks := []
    next_track_id := 0
    frame_count := 0 }

/-- Run a sequence of `update_tracks` calls, keeping only the state. -/
def runFrames (t : FaceTracker) : List (List Detection) → FaceTracker
  | [] => t
  | fs :: rest => runFrames (update_tracks t fs).1 rest

/-- The registry state after `update_tracks` has processed the first `i`
detections of the frame (before stale-track eviction). -/
def midState (t0 : FaceTracker) (faces : List Detection) (i : ℕ) : FaceTracker :=
  let t := { t0 with frame_count := t0.frame_count + 1 }
  let ms := match_faces_to_tracks t faces
  (processAll t [] [] ((faces.zip (ms.map (·.2))).take i)).1

/-! ## Lemmas about `calculate_iou` -/

theorem iouCore_range (x1 y1 w1 h1 x2 y2 w2 h2 : ℚ) :
    0 ≤ iouCore x1 y1 w1 h1 x2 y2 w2 h2 ∧ iouCore x1 y1 w1 h1 x2 y2 w2 h2 ≤ 1 := by
  simp only [iouCore]
  split_ifs with hdisj huni
  · exact ⟨le_refl 0, zero_le_one⟩
  · exact ⟨le_refl 0, zero_le_one⟩
  · push_neg at hdisj
    obtain ⟨hx, hy⟩ := hdisj
    have hx1 : x1 ≤ max x1 x2 := le_max_left _ _
    have hx2 : x2 ≤ max x1 x2 := le_max_right _ _
    have hx1' : min (x1 + w1) (x2 + w2) ≤ x1 + w1 := min_le_left _ _
    have hx2' : min (x1 + w1) (x2 + w2) ≤ x2 + w2 := min_le_right _ _
    have hy1 : y1 ≤ max y1 y2 := le_max_left _ _
    have hy2 : y2 ≤ max y1 y2 := le_max_right _ _
    have hy1' : min (y1 + h1) (y2 + h2) ≤ y1 + h1 := min_le_left _ _
    have hy2' : min (y1 + h1) (y2 + h2) ≤ y2 + h2 := min_le_right _ _
    set iw := min (x1 + w1) (x2 + w2) - max x1 x2 with hiw
    set ih := min (y1 + h1) (y2 + h2) - max y1 y2 with hih
    have hiw0 : 0 ≤ iw := by rw [hiw]; linarith
    have hih0 : 0 ≤ ih := by rw [hih]; linarith
    have hiww1 : iw ≤ w1 := by rw [hiw]; linarith
    have hiww2 : iw ≤ w2 := by rw [hiw]; linarith
    have hihh1 : ih ≤ h1 := by rw [hih]; linarith
    have hihh2 : ih ≤ h2 := by rw [hih]; linarith
    have hinter1 : iw * ih ≤ w1 * h1 :=
      mul_le_mul hiww1 hihh1 hih0 (le_trans hiw0 hiww1)
    have hinter2 : iw * ih ≤ w2 * h2 :=
      mul_le_mul hiww2 hihh2 hih0 (le_trans hiw0 hiww2)
    have hinter0 : 0 ≤ iw * ih := mul_nonneg hiw0 hih0
    have hu : 0 < w1 * h1 + w2 * h2 - iw * ih := by
      rcases lt_or_eq_of_le (by linarith : (0 : ℚ) ≤ w1 * h1 + w2 * h2 - iw * ih) with h | h
      · exact h
      · exact absurd h.symm huni
    constructor
    · exact div_nonneg hinter0 (le_of_lt hu)
    · rw [div_le_one hu]; linarith

theorem calculate_iou_range (a b : List ℚ) :
    0 ≤ calculate_iou a b ∧ calculate_iou a b ≤ 1 := by
  unfold calculate_iou
  rcases ha : toQuad a with _ | ⟨x1, y1, w1, h1⟩ <;>
    rcases hb : toQuad b with _ | ⟨x2, y2, w2, h2⟩ <;>
      simp [iouCore_range]

theorem iouCore_comm (x1 y1 w1 h1 x2 y2 w2 h2 : ℚ) :
    iouCore x1 y1 w1 h1 x2 y2 w2 h2 = iouCore x2 y2 w2 h2 x1 y1 w1 h1 := by
  simp only [iouCore]
  rw [max_comm x2 x1, max_comm y2 y1, min_comm (x2 + w2) (x1 + w1),
    min_comm (y2 + h2) (y1 + h1), add_comm (w2 * h2) (w1 * h1)]

theorem calculate_iou_comm (a b : List ℚ) :
    calculate_iou a b = calculate_iou b a := by
  unfold calculate_iou
  rcases ha : toQuad a with _ | ⟨x1, y1, w1, h1⟩ <;>
    rcases hb : toQuad b with _ | ⟨x2, y2, w2, h2⟩ <;>
      simp [iouCore_comm]

theorem iouCore_self (x y w h : ℚ) (hw : 0 < w) (hh : 0 < h) :
    iouCore x y w h x y w h = 1 := by
  have hwh : 0 < w * h := mul_pos hw hh
  simp only [iouCore, max_self, min_self]
  rw [if_neg, if_neg]
  · have : (x + w - x) * (y + h - y) = w * h := by ring
    rw [this]
    have : w * h + w * h - w * h = w * h := by ring
    rw [this]
    exact div_self (ne_of_gt hwh)
  · have : (x + w - x) * (y + h - y) = w * h := by ring
    rw [this]
    intro hc
    have : w * h = 0 := by linarith
    exact (ne_of_gt hwh) this
  · push_neg
    constructor <;> linarith

theorem iouCore_degenerate (x1 y1 w1 h1 x2 y2 w2 h2 : ℚ)
    (h : w1 ≤ 0 ∨ h1 ≤ 0 ∨ w2 ≤ 0 ∨ h2 ≤ 0) :
    iouCore x1 y1 w1 h1 x2 y2 w2 h2 = 0 := by
  simp only [iouCore]
  split_ifs with hdisj huni
  · rfl
  · rfl
  · push_neg at hdisj
    obtain ⟨hx, hy⟩ := hdisj
    have hx1 : x1 ≤ max x1 x2 := le_max_left _ _
    have hx2 : x2 ≤ max x1 x2 := le_max_right _ _
    have hx1' : min (x1 + w1) (x2 + w2) ≤ x1 + w1 := min_le_left _ _
    have hx2' : min (x1 + w1) (x2 + w2) ≤ x2 + w2 := min_le_right _ _
    have hy1 : y1 ≤ max y1 y2 := le_max_left _ _
    have hy2 : y2 ≤ max y1 y2 := le_max_right _ _
    have hy1' : min (y1 + h1) (y2 + h2) ≤ y1 + h1 := min_le_left _ _
    have hy2' : min (y1 + h1) (y2 + h2) ≤ y2 + h2 := min_le_right _ _
    -- a degenerate dimension forces the intersection area to be 0
    have hinter : (min (x1 + w1) (x2 + w2) - max x1 x2) * (min (y1 + h1) (y2 + h2) - max y1 y2) = 0 := by
      rcases h with h | h | h | h
      · have hzw : min (x1 + w1) (x2 + w2) - max x1 x2 = 0 :=
          le_antisymm (by linarith) (by linarith)
        rw [hzw, zero_mul]
      · have hzh : min (y1 + h1) (y2 + h2) - max y1 y2 = 0 :=
          le_antisymm (by linarith) (by linarith)
        rw [hzh, mul_zero]
      · have hzw : min (x1 + w1) (x2 + w2) - max x1 x2 = 0 :=
          le_antisymm (by linarith) (by linarith)
        rw [hzw, zero_mul]
      · have hzh : min (y1 + h1) (y2 + h2) - max y1 y2 = 0 :=
          le_antisymm (by linarith) (by linarith)
        rw [hzh, mul_zero]
    rw [hinter, zero_div]

theorem iouCore_disjoint (x1 y1 w1 h1 x2 y2 w2 h2 : ℚ)
    (h : min (x1 + w1) (x2 + w2) < max x1 x2 ∨ min (y1 + h1) (y2 + h2) < max y1 y2) :
    iouCore x1 y1 w1 h1 x2 y2 w2 h2 = 0 := by
  simp only [iouCore]
  rw [if_pos h]

theorem toQuad_eq_none_iff (a : List ℚ) : toQuad a = none ↔ a.length ≠ 4 := by
  match a with
  | [] => simp [toQuad]
  | [x] => simp [toQuad]
  | [x, y] => simp [toQuad]
  | [x, y, z] => simp [toQuad]
  | [x, y, z, w] => simp [toQuad]
  | x :: y :: z :: w :: v :: rest => simp [toQuad]

theorem calculate_iou_malformed (a b : List ℚ) (h : a.length ≠ 4 ∨ b.length ≠ 4) :
    calculate_iou a b = 0 := by
  unfold calculate_iou
  rcases h with h | h
  · rw [(toQuad_eq_none_iff a).mpr h]
  · rw [(toQuad_eq_none_iff b).mpr h]
    rcases toQuad a with _ | q <;> rfl

/-! ## Structure lemmas for the smoothers -/

theorem smooth_age_eq (m fc : ℕ) (hist0 : List AgeSample) (a c : ℚ)
    (K : List AgeSample)
    (hK : K = if (hist0 ++ [(⟨a, c, fc⟩ : AgeSample)]).length > m
      then (hist0 ++ [(⟨a, c, fc⟩ : AgeSample)]).tail
      else hist0 ++ [(⟨a, c, fc⟩ : AgeSample)]) :
    smooth_age_prediction m fc hist0 a c =
      if (K.map (ageWeight m fc)).sum > 0 then
        (K, (K.map (fun p => p.age * ageWeight m fc p)).sum / (K.map (ageWeight m fc)).sum,
            (K.map (·.confidence)).sum / (K.length : ℚ))
      else (K, a, c) := by
  subst hK; rfl

theorem smooth_age_hist (m fc : ℕ) (hist0 : List AgeSample) (a c : ℚ) :
    (smooth_age_prediction m fc hist0 a c).1 =
      if (hist0 ++ [(⟨a, c, fc⟩ : AgeSample)]).length > m
      then (hist0 ++ [(⟨a, c, fc⟩ : AgeSample)]).tail
      else hist0 ++ [(⟨a, c, fc⟩ : AgeSample)] := by
  rw [smooth_age_eq m fc hist0 a c _ rfl]
  split <;> split <;> rfl

/-- When the total weight over the retained history is positive, the
smoothed age is the weighted mean and the returned confidence is the plain
average of retained confidences. -/
theorem smooth_age_pos (m fc : ℕ) (hist0 : List AgeSample) (a c : ℚ)
    (h : 0 < ((smooth_age_prediction m fc hist0 a c).1.map (ageWeight m fc)).sum) :
    (smooth_age_prediction m fc hist0 a c).2.1 =
      ((smooth_age_prediction m fc hist0 a c).1.map
        (fun p => p.age * ageWeight m fc p)).sum /
      ((smooth_age_prediction m fc hist0 a c).1.map (ageWeight m fc)).sum ∧
    (smooth_age_prediction m fc hist0 a c).2.2 =
      ((smooth_age_prediction m fc hist0 a c).1.map (·.confidence)).sum /
      (((smooth_age_prediction m fc hist0 a c).1.length : ℚ)) := by
  rw [smooth_age_hist] at h ⊢
  rw [smooth_age_eq m fc hist0 a c _ rfl]
  rw [if_pos h]
  exact ⟨rfl, rfl⟩

/-- When the total weight is not positive the fallback returns the new
sample unweighted. -/
theorem smooth_age_fallback (m fc : ℕ) (hist0 : List AgeSample) (a c : ℚ)
    (h : ¬ 0 < ((smooth_age_prediction m fc hist0 a c).1.map (ageWeight m fc)).sum) :
    (smooth_age_prediction m fc hist0 a c).2 = (a, c) := by
  rw [smooth_age_hist] at h
  rw [smooth_age_eq m fc hist0 a c _ rfl]
  rw [if_neg h]

theorem smooth_emotion_eq (m fc : ℕ) (hist0 : List EmoSample)
    (em : List (String × ℚ)) (dom : String) (c : ℚ)
    (K : List EmoSample)
    (hK : K = if (hist0 ++ [(⟨em, dom, c, fc⟩ : EmoSample)]).length > m
      then (hist0 ++ [(⟨em, dom, c, fc⟩ : EmoSample)]).tail
      else hist0 ++ [(⟨em, dom, c, fc⟩ : EmoSample)]) :
    smooth_emotion_prediction m fc hist0 em dom c =
      (match argmaxPy (if (K.map (emoWeight m fc)).sum > 0 then
          emotion_names.map (fun n =>
            (n, (K.map (fun p =>
                  match p.emotions.lookup n with
                  | some v => v * emoWeight m fc p
                  | none => 0)).sum / (K.map (emoWeight m fc)).sum))
        else em) with
      | some best => (K, some (if (K.map (emoWeight m fc)).sum > 0 then
          emotion_names.map (fun n =>
            (n, (K.map (fun p =>
                  match p.emotions.lookup n with
                  | some v => v * emoWeight m fc p
                  | none => 0)).sum / (K.map (emoWeight m fc)).sum))
        else em, best.1, best.2))
      | none => (K, none)) := by
  subst hK; rfl

theorem smooth_emotion_hist (m fc : ℕ) (hist0 : List EmoSample)
    (em : List (String × ℚ)) (dom : String) (c : ℚ) :
    (smooth_emotion_prediction m fc hist0 em dom c).1 =
      if (hist0 ++ [(⟨em, dom, c, fc⟩ : EmoSample)]).length > m
      then (hist0 ++ [(⟨em, dom, c, fc⟩ : EmoSample)]).tail
      else hist0 ++ [(⟨em, dom, c, fc⟩ : EmoSample)] := by
  rw [smooth_emotion_eq m fc hist0 em dom c _ rfl]
  split <;> rfl

theorem argmaxPy_ne_nil {l : List (String × ℚ)} (h : l ≠ []) :
    ∃ best, argmaxPy l = some best := by
  match l with
  | [] => exact absurd rfl h
  | x :: xs => exact ⟨_, rfl⟩

/-! ## Claim C9 -/

/-- C9: `calculate_iou` is total and deterministic, returns a ratio in
`[0, 1]`, is symmetric, equals `1` on any box with positive width and
height compared with itself, and returns exactly `0` whenever the boxes do
not intersect, a width or height is non-positive (which also covers a zero
union area), or a box does not have exactly four entries. -/
theorem C9_calculate_iou_contract (a b : List ℚ) :
    (0 ≤ calculate_iou a b ∧ calculate_iou a b ≤ 1) ∧
    calculate_iou a b = calculate_iou b a ∧
    (∀ x y w h : ℚ, 0 < w → 0 < h → calculate_iou [x, y, w, h] [x, y, w, h] = 1) ∧
    (∀ x1 y1 w1 h1 x2 y2 w2 h2 : ℚ, a = [x1, y1, w1, h1] → b = [x2, y2, w2, h2] →
      ((min (x1 + w1) (x2 + w2) < max x1 x2 ∨ min (y1 + h1) (y2 + h2) < max y1 y2) ∨
        (w1 ≤ 0 ∨ h1 ≤ 0 ∨ w2 ≤ 0 ∨ h2 ≤ 0)) →
      calculate_iou a b = 0) ∧
    (a.length ≠ 4 ∨ b.length ≠ 4 → calculate_iou a b = 0) := by
  refine ⟨calculate_iou_range a b, calculate_iou_comm a b, ?_, ?_,
    calculate_iou_malformed a b⟩
  · intro x y w h hw hh
    exact iouCore_self x y w h hw hh
  · intro x1 y1 w1 h1 x2 y2 w2 h2 ha hb hcond
    subst ha; subst hb
    rcases hcond with h | h
    · exact iouCore_disjoint x1 y1 w1 h1 x2 y2 w2 h2 h
    · exact iouCore_degenerate x1 y1 w1 h1 x2 y2 w2 h2 h

theorem C9_calculate_iou_contract_witness :
    calculate_iou [0, 0, 2, 2] [1, 1, 2, 2] = calculate_iou [1, 1, 2, 2] [0, 0, 2, 2] ∧
    calculate_iou [3, 4, 2, 2] [3, 4, 2, 2] = 1 ∧
    calculate_iou [0, 0, 2, 2] [5, 5, 2, 2] = 0 ∧
    calculate_iou [0, 0, 2] [0, 0, 2, 2] = 0 :=
  ⟨(C9_calculate_iou_contract [0, 0, 2, 2] [1, 1, 2, 2]).2.1,
   (C9_calculate_iou_contract [0, 0, 2, 2] [1, 1, 2, 2]).2.2.1 3 4 2 2 (by norm_num) (by norm_num),
   (C9_calculate_iou_contract [0, 0, 2, 2] [5, 5, 2, 2]).2.2.2.1 0 0 2 2 5 5 2 2 rfl rfl
     (Or.inl (Or.inl (by norm_num))),
   (C9_calculate_iou_contract [0, 0, 2] [0, 0, 2, 2]).2.2.2.2 (Or.inl (by norm_num))⟩

/-! ## Claim C1 -/

/-- C1 as stated is false on the code: no clamping occurs.  A track
created at frame 1, missing for ten frames and re-matched at frame 12
(well within `max_missing_frames = 10`) retains a sample whose weight
`confidence × recency_weight` is negative, and that negative weight enters
the weighted sum: the smoothed age `170/9 ≈ 18.9` lies below both raw ages
(with clamping it would be `20`). -/
theorem C1_counterexample :
    (⟨30, 1, 1⟩ : AgeSample) ∈ (smooth_age_prediction 10 12 [⟨30, 1, 1⟩] 20 1).1 ∧
    ageWeight 10 12 ⟨30, 1, 1⟩ < 0 ∧
    (smooth_age_prediction 10 12 [⟨30, 1, 1⟩] 20 1).2.1 = 170 / 9 := by
  refine ⟨?_, ?_, ?_⟩
  · rw [smooth_age_hist]
    norm_num
  · norm_num [ageWeight]
  · norm_num [smooth_age_prediction, ageWeight]

/-- C1 amended: the weight of every retained sample is non-negative
whenever every sample in the history is at most `max_age_history` frames
old (in particular on the typical path where the track was matched every
frame); nothing is clamped, and samples older than that bound contribute
negative weights to the sum (see the counterexample). -/
theorem C1_amended_weights_nonneg (m fc : ℕ) (hist0 : List AgeSample) (a c : ℚ)
    (hm : 0 < m) (hc : 0 ≤ c)
    (hold : ∀ p ∈ hist0, 0 ≤ p.confidence ∧ (fc : ℚ) - (p.frame : ℚ) ≤ (m : ℚ)) :
    ∀ p ∈ (smooth_age_prediction m fc hist0 a c).1, 0 ≤ ageWeight m fc p := by
  intro p hp
  rw [smooth_age_hist] at hp
  have hmem : p ∈ hist0 ++ [(⟨a, c, fc⟩ : AgeSample)] := by
    split at hp
    · exact List.tail_subset _ hp
    · exact hp
  have hm' : (0 : ℚ) < (m : ℚ) := by exact_mod_cast hm
  rcases List.mem_append.mp hmem with hmemL | hmemR
  · obtain ⟨hconf, hage⟩ := hold p hmemL
    unfold ageWeight
    apply mul_nonneg hconf
    have : ((fc : ℚ) - (p.frame : ℚ)) / (m : ℚ) ≤ 1 := by
      rw [div_le_one hm']
      exact hage
    linarith
  · have hp' : p = (⟨a, c, fc⟩ : AgeSample) := List.mem_singleton.mp hmemR
    subst hp'
    unfold ageWeight
    simp only [sub_self, zero_div, sub_zero, mul_one]
    exact hc

theorem C1_amended_weights_nonneg_witness :
    0 ≤ ageWeight 10 2 ⟨20, 1, 1⟩ :=
  C1_amended_weights_nonneg 10 2 [⟨20, 1, 1⟩] 22 1 (by norm_num) (by norm_num)
    (by norm_num) ⟨20, 1, 1⟩ (by rw [smooth_age_hist]; norm_num)

/-! ## Claim C2 -/

/-- C2: with positive total weight the smoothed age is the weighted mean
over the retained history with weight `confidence × (1 − (current_frame −
sample_frame)/max_age_history)`; and on the concrete scenario of ages
20, 22, 24 over three consecutive frames with confidence 1 and
`max_age_history = 10`, the smoothed ages are strictly increasing, with
the final value strictly between 20 and 24. -/
theorem C2_weighted_mean_and_scenario (m fc : ℕ) (hist0 : List AgeSample) (a c : ℚ)
    (h : 0 < ((smooth_age_prediction m fc hist0 a c).1.map (ageWeight m fc)).sum) :
    (smooth_age_prediction m fc hist0 a c).2.1 =
      ((smooth_age_prediction m fc hist0 a c).1.map
        (fun p => p.age * ageWeight m fc p)).sum /
      ((smooth_age_prediction m fc hist0 a c).1.map (ageWeight m fc)).sum ∧
    ((smooth_age_prediction 10 1 [] 20 1).2.1 = 20 ∧
     (smooth_age_prediction 10 2 (smooth_age_prediction 10 1 [] 20 1).1 22 1).2.1 = 400 / 19 ∧
     (smooth_age_prediction 10 3
        (smooth_age_prediction 10 2 (smooth_age_prediction 10 1 [] 20 1).1 22 1).1 24 1).2.1
       = 598 / 27 ∧
     (20 : ℚ) < 400 / 19 ∧ (400 : ℚ) / 19 < 598 / 27 ∧ (598 : ℚ) / 27 < 24) := by
  refine ⟨(smooth_age_pos m fc hist0 a c h).1, ?_, ?_, ?_, ?_, ?_, ?_⟩ <;>
    norm_num [smooth_age_prediction, ageWeight]

theorem C2_weighted_mean_and_scenario_witness :
    (smooth_age_prediction 10 1 [] 20 1).2.1 =
      (((smooth_age_prediction 10 1 [] 20 1).1.map
        (fun p => p.age * ageWeight 10 1 p)).sum /
      ((smooth_age_prediction 10 1 [] 20 1).1.map (ageWeight 10 1)).sum) ∧
    ((smooth_age_prediction 10 1 [] 20 1).2.1 = 20 ∧
     (smooth_age_prediction 10 2 (smooth_age_prediction 10 1 [] 20 1).1 22 1).2.1 = 400 / 19 ∧
     (smooth_age_prediction 10 3
        (smooth_age_prediction 10 2 (smooth_age_prediction 10 1 [] 20 1).1 22 1).1 24 1).2.1
       = 598 / 27 ∧
     (20 : ℚ) < 400 / 19 ∧ (400 : ℚ) / 19 < 598 / 27 ∧ (598 : ℚ) / 27 < 24) :=
  C2_weighted_mean_and_scenario 10 1 [] 20 1 (by norm_num [smooth_age_prediction, ageWeight])

/-! ## Claim C3 -/

/-- A detection carrying an empty emotions map with zero confidence. -/
def emptyEmotionDet : Detection :=
  { bbox := some [10, 10, 50, 50], emotions := some [], emotion_confidence := some 0 }

/-- C3 as stated is false on the code: on a zero-weight aggregation the
emotion smoother falls back to the raw input map and then takes
`max(...)` over it, which raises `ValueError` when that map is empty.
A detection with `emotions = {}` and `emotion_confidence = 0` makes the
whole `update_tracks` call raise. -/
theorem C3_counterexample :
    (smooth_emotion_prediction 5 1 [] [] "neutral" 0).2 = none ∧
    (update_tracks (initTracker 3 10 5 (3 / 10) 10) [emptyEmotionDet]).2 = none := by
  constructor
  · norm_num [smooth_emotion_prediction, emoWeight, argmaxPy, emotion_names]
  · norm_num [update_tracks, initTracker, match_faces_to_tracks, matchLoop, bestTrack,
      processAll, createTrack, applyTrack, applyCore, setTrack, newTrack, emptyEmotionDet,
      smooth_emotion_prediction, argmaxPy, emoWeight, emotion_names, List.zip,
      List.zipWith, List.lookup, removeStale, defaultBBox]

/-- C3 amended: the zero-weight fallbacks hold — `smooth_age_prediction`
returns the new sample unweighted and never raises, and
`smooth_emotion_prediction` returns the new raw emotions map unweighted —
but the emotion smoother only avoids raising when the map it falls back on
is non-empty; with a non-empty input map it never raises. -/
theorem C3_amended_zero_weight_fallback (mah fca : ℕ) (histA : List AgeSample) (a ca : ℚ)
    (meh fce : ℕ) (histE : List EmoSample) (em : List (String × ℚ)) (dom : String) (ce : ℚ)
    (hne : em ≠ []) :
    (¬ 0 < ((smooth_age_prediction mah fca histA a ca).1.map (ageWeight mah fca)).sum →
      (smooth_age_prediction mah fca histA a ca).2 = (a, ca)) ∧
    (smooth_emotion_prediction meh fce histE em dom ce).2 ≠ none ∧
    (¬ 0 < ((smooth_emotion_prediction meh fce histE em dom ce).1.map (emoWeight meh fce)).sum →
      ∃ best, argmaxPy em = some best ∧
        (smooth_emotion_prediction meh fce histE em dom ce).2 = some (em, best.1, best.2)) := by
  refine ⟨smooth_age_fallback mah fca histA a ca, ?_, ?_⟩
  · set K := if (histE ++ [(⟨em, dom, ce, fce⟩ : EmoSample)]).length > meh
      then (histE ++ [(⟨em, dom, ce, fce⟩ : EmoSample)]).tail
      else histE ++ [(⟨em, dom, ce, fce⟩ : EmoSample)] with hK
    rw [smooth_emotion_eq meh fce histE em dom ce K hK]
    by_cases htw : (K.map (emoWeight meh fce)).sum > 0
    · rw [if_pos htw]
      split
      · simp
      · rename_i h
        simp [emotion_names, argmaxPy] at h
    · rw [if_neg htw]
      split
      · simp
      · rename_i h
        obtain ⟨b, hb⟩ := argmaxPy_ne_nil hne
        rw [hb] at h
        simp at h
  · intro hw
    rw [smooth_emotion_hist] at hw
    set K := if (histE ++ [(⟨em, dom, ce, fce⟩ : EmoSample)]).length > meh
      then (histE ++ [(⟨em, dom, ce, fce⟩ : EmoSample)]).tail
      else histE ++ [(⟨em, dom, ce, fce⟩ : EmoSample)] with hK
    rw [smooth_emotion_eq meh fce histE em dom ce K hK]
    rw [if_neg hw]
    obtain ⟨best, hbest⟩ := argmaxPy_ne_nil hne
    rw [hbest]
    exact ⟨best, rfl, rfl⟩

theorem C3_amended_zero_weight_fallback_witness :
    ((smooth_age_prediction 10 1 [] 20 0).2 = ((20 : ℚ), (0 : ℚ))) ∧
    (smooth_emotion_prediction 5 1 [] [("happy", 1)] "happy" 0).2 ≠ none :=
  ⟨(C3_amended_zero_weight_fallback 10 1 [] 20 0 5 1 [] [("happy", 1)] "happy" 0
      (by simp)).1
    (by norm_num [smooth_age_prediction, ageWeight]),
   (C3_amended_zero_weight_fallback 10 1 [] 20 0 5 1 [] [("happy", 1)] "happy" 0
      (by simp)).2.1⟩

/-! ## Claim C10 -/

/-- Frame-1 detection for the concrete wiring scenario of C10. -/
def c10det1 : Detection :=
  { bbox := some [10, 10, 50, 50], age := some 20, age_confidence := some (8 / 10) }

/-- Frame-2 detection for the concrete wiring scenario of C10. -/
def c10det2 : Detection :=
  { bbox := some [10, 10, 50, 50], age := some 20, age_confidence := some (6 / 10) }

/-- C10: under positive total weight the returned age confidence is the
plain unweighted arithmetic mean of the retained confidences, it lies in
`[0, 1]` whenever all confidences do, and `update_tracks` writes exactly
this value into the output detection's `age_confidence` field (concrete
two-frame run: confidences 0.8 then 0.6 produce 0.7, not the
recency/confidence-weighted value). -/
theorem C10_age_confidence_unweighted_mean (m fc : ℕ) (hist0 : List AgeSample) (a c : ℚ)
    (hpos : 0 < ((smooth_age_prediction m fc hist0 a c).1.map (ageWeight m fc)).sum)
    (hc0 : 0 ≤ c) (hc1 : c ≤ 1)
    (hold : ∀ p ∈ hist0, 0 ≤ p.confidence ∧ p.confidence ≤ 1) :
    (smooth_age_prediction m fc hist0 a c).2.2 =
      ((smooth_age_prediction m fc hist0 a c).1.map (·.confidence)).sum /
        ((smooth_age_prediction m fc hist0 a c).1.length : ℚ) ∧
    0 ≤ (smooth_age_prediction m fc hist0 a c).2.2 ∧
    (smooth_age_prediction m fc hist0 a c).2.2 ≤ 1 ∧
    ((update_tracks (update_tracks (initTracker 3 10 5 (3 / 10) 10) [c10det1]).1
        [c10det2]).2.getD []).map (·.age_confidence) = [some (7 / 10)] := by
  have hmean := (smooth_age_pos m fc hist0 a c hpos).2
  have hsub : ∀ p ∈ (smooth_age_prediction m fc hist0 a c).1,
      0 ≤ p.confidence ∧ p.confidence ≤ 1 := by
    intro p hp
    rw [smooth_age_hist] at hp
    have hmem : p ∈ hist0 ++ [(⟨a, c, fc⟩ : AgeSample)] := by
      split at hp
      · exact List.tail_subset _ hp
      · exact hp
    rcases List.mem_append.mp hmem with hL | hR
    · exact hold p hL
    · rw [List.mem_singleton.mp hR]
      exact ⟨hc0, hc1⟩
  have hne : (smooth_age_prediction m fc hist0 a c).1 ≠ [] := by
    intro hnil
    rw [hnil] at hpos
    simp at hpos
  have hlen : (0 : ℚ) < ((smooth_age_prediction m fc hist0 a c).1.length : ℚ) := by
    have := List.length_pos.mpr hne
    exact_mod_cast this
  have hsum0 : 0 ≤ ((smooth_age_prediction m fc hist0 a c).1.map (·.confidence)).sum := by
    apply List.sum_nonneg
    intro x hx
    obtain ⟨p, hp, hpx⟩ := List.mem_map.mp hx
    rw [← hpx]
    exact (hsub p hp).1
  have hsum1 : ((smooth_age_prediction m fc hist0 a c).1.map (·.confidence)).sum ≤
      ((smooth_age_prediction m fc hist0 a c).1.length : ℚ) := by
    have hb : ∀ x ∈ (smooth_age_prediction m fc hist0 a c).1.map (·.confidence), x ≤ 1 := by
      intro x hx
      obtain ⟨p, hp, hpx⟩ := List.mem_map.mp hx
      rw [← hpx]
      exact (hsub p hp).2
    have := List.sum_le_card_nsmul _ 1 hb
    rw [List.length_map] at this
    simpa using this
  refine ⟨hmean, ?_, ?_, ?_⟩
  · rw [hmean]
    exact div_nonneg hsum0 (le_of_lt hlen)
  · rw [hmean, div_le_one hlen]
    exact hsum1
  · norm_num [update_tracks, initTracker, match_faces_to_tracks, matchLoop, bestTrack,
      calculate_iou, toQuad, iouCore, processAll, createTrack, applyTrack, applyCore,
      setTrack, newTrack, c10det1, c10det2, smooth_age_prediction, ageWeight, roundPy1,
      roundHalfEven, List.zip, List.zipWith, List.lookup, removeStale, defaultBBox]

theorem C10_age_confidence_unweighted_mean_witness :
    (smooth_age_prediction 10 2 [⟨20, 1, 1⟩] 22 (1 / 2)).2.2 =
      (((smooth_age_prediction 10 2 [⟨20, 1, 1⟩] 22 (1 / 2)).1.map (·.confidence)).sum /
        (((smooth_age_prediction 10 2 [⟨20, 1, 1⟩] 22 (1 / 2)).1.length : ℚ))) ∧
    0 ≤ (smooth_age_prediction 10 2 [⟨20, 1, 1⟩] 22 (1 / 2)).2.2 ∧
    (smooth_age_prediction 10 2 [⟨20, 1, 1⟩] 22 (1 / 2)).2.2 ≤ 1 ∧
    ((update_tracks (update_tracks (initTracker 3 10 5 (3 / 10) 10) [c10det1]).1
        [c10det2]).2.getD []).map (·.age_confidence) = [some (7 / 10)] :=
  C10_age_confidence_unweighted_mean 10 2 [⟨20, 1, 1⟩] 22 (1 / 2)
    (by norm_num [smooth_age_prediction, ageWeight]) (by norm_num) (by norm_num)
    (by norm_num)

/-! ## Lemmas for the matcher -/

theorem bestTrack_cons_used (τ : ℚ) (bbox : List ℚ) (used : List ℕ)
    (acc : Option ℕ × ℚ) (p : ℕ × Track) (rest : List (ℕ × Track)) (hu : p.1 ∈ used) :
    bestTrack τ bbox used acc (p :: rest) = bestTrack τ bbox used acc rest := by
  simp [bestTrack, hu]

theorem bestTrack_cons_update (τ : ℚ) (bbox : List ℚ) (used : List ℕ)
    (acc : Option ℕ × ℚ) (p : ℕ × Track) (rest : List (ℕ × Track)) (hu : p.1 ∉ used)
    (hc : calculate_iou bbox p.2.last_bbox > acc.2 ∧ calculate_iou bbox p.2.last_bbox > τ) :
    bestTrack τ bbox used acc (p :: rest) =
      bestTrack τ bbox used (some p.1, calculate_iou bbox p.2.last_bbox) rest := by
  simp only [bestTrack]
  rw [if_neg hu, if_pos hc]

theorem bestTrack_cons_skip (τ : ℚ) (bbox : List ℚ) (used : List ℕ)
    (acc : Option ℕ × ℚ) (p : ℕ × Track) (rest : List (ℕ × Track)) (hu : p.1 ∉ used)
    (hc : ¬(calculate_iou bbox p.2.last_bbox > acc.2 ∧ calculate_iou bbox p.2.last_bbox > τ)) :
    bestTrack τ bbox used acc (p :: rest) = bestTrack τ bbox used acc rest := by
  simp only [bestTrack]
  rw [if_neg hu, if_neg hc]

/-- Full characterization of the inner greedy loop: either the accumulator
passes through unchanged and no unclaimed track beats it, or the result is
the first unclaimed track attaining the strict maximum of the qualifying
overlaps. -/
theorem bestTrack_spec (τ : ℚ) (bbox : List ℚ) (used : List ℕ) :
    ∀ (l : List (ℕ × Track)) (b : Option ℕ) (v : ℚ),
      (bestTrack τ bbox used (b, v) l = (b, v) ∧
        ∀ p ∈ l, p.1 ∉ used →
          ¬(calculate_iou bbox p.2.last_bbox > v ∧ calculate_iou bbox p.2.last_bbox > τ)) ∨
      (∃ j, ∃ hj : j < l.length,
        l[j].1 ∉ used ∧
        bestTrack τ bbox used (b, v) l =
          (some l[j].1, calculate_iou bbox l[j].2.last_bbox) ∧
        calculate_iou bbox l[j].2.last_bbox > τ ∧
        calculate_iou bbox l[j].2.last_bbox > v ∧
        (∀ k (hk : k < l.length), l[k].1 ∉ used →
          calculate_iou bbox l[k].2.last_bbox ≤
            max τ (calculate_iou bbox l[j].2.last_bbox)) ∧
        (∀ k (hk : k < l.length), k < j → l[k].1 ∉ used →
          calculate_iou bbox l[k].2.last_bbox <
            calculate_iou bbox l[j].2.last_bbox)) := by
  intro l
  induction l with
  | nil =>
    intro b v
    left
    exact ⟨rfl, by simp⟩
  | cons p rest ih =>
    intro b v
    by_cases hu : p.1 ∈ used
    · rw [bestTrack_cons_used τ bbox used (b, v) p rest hu]
      rcases ih b v with ⟨heq, hall⟩ | ⟨j, hj, hnu, heq, hgtτ, hgtv, hmax, hstrict⟩
      · left
        refine ⟨heq, ?_⟩
        intro q hq hqu
        rcases List.mem_cons.mp hq with hq | hq
        · rw [hq] at hqu; exact absurd hu hqu
        · exact hall q hq hqu
      · right
        refine ⟨j + 1, by simpa using Nat.succ_lt_succ hj, ?_, ?_, ?_, ?_, ?_, ?_⟩
        · simpa using hnu
        · simpa using heq
        · simpa using hgtτ
        · simpa using hgtv
        · intro k hk hku
          rcases k with _ | k
          · simp only [List.getElem_cons_zero] at hku
            exact absurd hu hku
          · simp only [List.getElem_cons_succ] at hku ⊢
            exact hmax k (by simp only [List.length_cons] at hk; omega) hku
        · intro k hk hkj hku
          rcases k with _ | k
          · simp only [List.getElem_cons_zero] at hku
            exact absurd hu hku
          · simp only [List.getElem_cons_succ] at hku ⊢
            exact hstrict k (by simp only [List.length_cons] at hk; omega) (by omega) hku
    · by_cases hc : calculate_iou bbox p.2.last_bbox > v ∧ calculate_iou bbox p.2.last_bbox > τ
      · rw [bestTrack_cons_update τ bbox used (b, v) p rest hu hc]
        rcases ih (some p.1) (calculate_iou bbox p.2.last_bbox) with
          ⟨heq, hall⟩ | ⟨j, hj, hnu, heq, hgtτ, hgtv, hmax, hstrict⟩
        · right
          refine ⟨0, by simp, ?_, ?_, ?_, ?_, ?_, ?_⟩
          · simpa using hu
          · simpa using heq
          · simpa using hc.2
          · simpa using hc.1
          · intro k hk hku
            rcases k with _ | k
            · simp
            · simp only [List.getElem_cons_succ, List.getElem_cons_zero] at hku ⊢
              have := hall _ (rest.getElem_mem (by simp only [List.length_cons] at hk; omega)) hku
              rcases not_and_or.mp this with h | h
              · exact le_trans (not_lt.mp h) (le_max_right _ _)
              · exact le_trans (not_lt.mp h) (le_max_left _ _)
          · intro k hk hkj hku
            exact absurd hkj (Nat.not_lt_zero k)
        · right
          refine ⟨j + 1, by simpa using Nat.succ_lt_succ hj, ?_, ?_, ?_, ?_, ?_, ?_⟩
          · simpa using hnu
          · simpa using heq
          · simpa using hgtτ
          · simp only [List.getElem_cons_succ]
            exact lt_trans hc.1 hgtv
          · intro k hk hku
            rcases k with _ | k
            · simp only [List.getElem_cons_zero, List.getElem_cons_succ]
              exact le_trans (le_of_lt hgtv) (le_max_right _ _)
            · simp only [List.getElem_cons_succ] at hku ⊢
              exact hmax k (by simp only [List.length_cons] at hk; omega) hku
          · intro k hk hkj hku
            rcases k with _ | k
            · simp only [List.getElem_cons_zero, List.getElem_cons_succ]
              exact hgtv
            · simp only [List.getElem_cons_succ] at hku ⊢
              exact hstrict k (by simp only [List.length_cons] at hk; omega) (by omega) hku
      · rw [bestTrack_cons_skip τ bbox used (b, v) p rest hu hc]
        rcases ih b v with ⟨heq, hall⟩ | ⟨j, hj, hnu, heq, hgtτ, hgtv, hmax, hstrict⟩
        · left
          refine ⟨heq, ?_⟩
          intro q hq hqu
          rcases List.mem_cons.mp hq with hq | hq
          · rw [hq]; exact hc
          · exact hall q hq hqu
        · right
          refine ⟨j + 1, by simpa using Nat.succ_lt_succ hj, ?_, ?_, ?_, ?_, ?_, ?_⟩
          · simpa using hnu
          · simpa using heq
          · simpa using hgtτ
          · simpa using hgtv
          · intro k hk hku
            rcases k with _ | k
            · simp only [List.getElem_cons_zero, List.getElem_cons_succ]
              rcases not_and_or.mp hc with h | h
              · exact le_trans (not_lt.mp h) (le_trans (le_of_lt hgtv) (le_max_right _ _))
              · exact le_trans (not_lt.mp h) (le_max_left _ _)
            · simp only [List.getElem_cons_succ] at hku ⊢
              exact hmax k (by simp only [List.length_cons] at hk; omega) hku
          · intro k hk hkj hku
            rcases k with _ | k
            · simp only [List.getElem_cons_zero, List.getElem_cons_succ]
              rcases not_and_or.mp hc with h | h
              · exact lt_of_le_of_lt (not_lt.mp h) hgtv
              · exact lt_of_le_of_lt (not_lt.mp h) hgtτ
            · simp only [List.getElem_cons_succ] at hku ⊢
              exact hstrict k (by simp only [List.length_cons] at hk; omega) (by omega) hku

/-- The specification of one greedy matching decision, following the
spec's words: a detection is assigned a track iff some unclaimed track has
overlap strictly greater than the threshold; the assigned track is
unclaimed, maximizes the overlap among unclaimed tracks, and is the
first-encountered track in iteration order attaining that maximum. -/
def greedyChoiceSpec (τ : ℚ) (tracks : List (ℕ × Track)) (bbox : List ℚ)
    (used : List ℕ) (r : Option ℕ) : Prop :=
  (r = none → ∀ p ∈ tracks, p.1 ∉ used → calculate_iou bbox p.2.last_bbox ≤ τ) ∧
  (∀ id, r = some id → id ∉ used ∧
    ∃ j, ∃ hj : j < tracks.length, tracks[j].1 = id ∧
      τ < calculate_iou bbox tracks[j].2.last_bbox ∧
      (∀ k (hk : k < tracks.length), tracks[k].1 ∉ used →
        calculate_iou bbox tracks[k].2.last_bbox ≤
          calculate_iou bbox tracks[j].2.last_bbox) ∧
      (∀ k (hk : k < tracks.length), k < j → tracks[k].1 ∉ used →
        calculate_iou bbox tracks[k].2.last_bbox <
          calculate_iou bbox tracks[j].2.last_bbox))

/-- The inner loop started from `(None, 0.0)` satisfies the greedy
specification whenever the threshold is non-negative. -/
theorem bestTrack_greedyChoiceSpec (τ : ℚ) (bbox : List ℚ) (used : List ℕ)
    (tracks : List (ℕ × Track)) (hτ : 0 ≤ τ) :
    greedyChoiceSpec τ tracks bbox used (bestTrack τ bbox used (none, 0) tracks).1 := by
  rcases bestTrack_spec τ bbox used tracks none 0 with
    ⟨heq, hall⟩ | ⟨j, hj, hnu, heq, hgtτ, hgtv, hmax, hstrict⟩
  · constructor
    · intro _ p hp hpu
      have h := hall p hp hpu
      rcases not_and_or.mp h with h | h
      · have h0 := (calculate_iou_range bbox p.2.last_bbox).1
        have : calculate_iou bbox p.2.last_bbox ≤ 0 := not_lt.mp h
        linarith
      · exact not_lt.mp h
    · intro id hid
      rw [heq] at hid
      exact absurd hid (by simp)
  · constructor
    · intro hnone
      rw [heq] at hnone
      exact absurd hnone (by simp)
    · intro id hid
      rw [heq] at hid
      simp only [Option.some.injEq] at hid
      subst hid
      refine ⟨hnu, j, hj, rfl, hgtτ, ?_, hstrict⟩
      intro k hk hku
      have := hmax k hk hku
      rwa [max_eq_right (le_of_lt hgtτ)] at this

theorem matchLoop_length (τ : ℚ) (tracks : List (ℕ × Track)) :
    ∀ (faces : List Detection) (used : List ℕ) (idx : ℕ),
      (matchLoop τ tracks used idx faces).length = faces.length := by
  intro faces
  induction faces with
  | nil => intro used idx; rfl
  | cons face rest ih =>
    intro used idx
    simp only [matchLoop, List.length_cons]
    rw [ih]

theorem matchLoop_fst (τ : ℚ) (tracks : List (ℕ × Track)) :
    ∀ (faces : List Detection) (used : List ℕ) (idx : ℕ) (i : ℕ)
      (hi : i < (matchLoop τ tracks used idx faces).length),
      (matchLoop τ tracks used idx faces)[i].1 = idx + i := by
  intro faces
  induction faces with
  | nil =>
    intro used idx i hi
    simp [matchLoop] at hi
  | cons face rest ih =>
    intro used idx i hi
    rcases i with _ | i
    · simp [matchLoop]
    · simp only [matchLoop, List.getElem_cons_succ]
      rw [ih]
      omega

/-- Shifting one assigned-or-not decision between the claimed set and the
collected assignment list preserves membership. -/
theorem mem_used_shift (used : List ℕ) (idx : ℕ) (b : Option ℕ)
    (L : List (ℕ × Option ℕ)) (x : ℕ) :
    (x ∈ (match b with | some id => id :: used | none => used) ++ assignedIds L) ↔
    x ∈ used ++ assignedIds ((idx, b) :: L) := by
  rcases b with _ | id <;> simp [assignedIds] <;> tauto

theorem greedyChoiceSpec_congr (τ : ℚ) (tracks : List (ℕ × Track)) (bbox : List ℚ)
    {u1 u2 : List ℕ} (h : ∀ x, x ∈ u1 ↔ x ∈ u2) (r : Option ℕ)
    (hs : greedyChoiceSpec τ tracks bbox u1 r) :
    greedyChoiceSpec τ tracks bbox u2 r := by
  obtain ⟨hn, hs⟩ := hs
  constructor
  · intro hr p hp hpu
    exact hn hr p hp (fun hx => hpu ((h p.1).mp hx))
  · intro id hid
    obtain ⟨hidu, j, hj, hjid, hjτ, hmax, hstrict⟩ := hs id hid
    refine ⟨fun hx => hidu ((h id).mpr hx), j, hj, hjid, hjτ, ?_, ?_⟩
    · intro k hk hku
      exact hmax k hk (fun hx => hku ((h _).mp hx))
    · intro k hk hkj hku
      exact hstrict k hk hkj (fun hx => hku ((h _).mp hx))

/-- Each decision of the outer matching loop satisfies the greedy
specification with respect to the tracks already claimed by earlier
detections of the same pass. -/
theorem matchLoop_spec (τ : ℚ) (tracks : List (ℕ × Track)) (hτ : 0 ≤ τ) :
    ∀ (faces : List Detection) (used : List ℕ) (idx : ℕ) (i : ℕ)
      (hi : i < (matchLoop τ tracks used idx faces).length)
      (hif : i < faces.length),
      greedyChoiceSpec τ tracks (faces[i].bbox.getD defaultBBox)
        (used ++ assignedIds ((matchLoop τ tracks used idx faces).take i))
        ((matchLoop τ tracks used idx faces)[i].2) := by
  intro faces
  induction faces with
  | nil =>
    intro used idx i hi hif
    simp at hif
  | cons face rest ih =>
    intro used idx i hi hif
    rcases i with _ | i
    · simp only [matchLoop, List.getElem_cons_zero, List.take_zero, assignedIds,
        List.filterMap_nil, List.append_nil]
      exact bestTrack_greedyChoiceSpec τ (face.bbox.getD defaultBBox) used tracks hτ
    · simp only [matchLoop, List.getElem_cons_succ, List.take_succ_cons]
      have hi' : i < (matchLoop τ tracks
          (match (bestTrack τ (face.bbox.getD defaultBBox) used (none, 0) tracks).1 with
            | some id => id :: used
            | none => used) (idx + 1) rest).length := by
        simp only [matchLoop, List.length_cons] at hi
        rw [matchLoop_length] at hi ⊢
        exact Nat.lt_of_succ_lt_succ hi
      have hif' : i < rest.length := Nat.lt_of_succ_lt_succ hif
      refine greedyChoiceSpec_congr τ tracks _
        (fun x => mem_used_shift used idx _ _ x) _ ?_
      exact ih _ (idx + 1) i hi' hif' 

theorem bestTrack_some_not_used (τ : ℚ) (bbox : List ℚ) (used : List ℕ)
    (tracks : List (ℕ × Track)) (id : ℕ)
    (h : (bestTrack τ bbox used (none, 0) tracks).1 = some id) : id ∉ used := by
  rcases bestTrack_spec τ bbox used tracks none 0 with
    ⟨heq, _⟩ | ⟨j, hj, hnu, heq, _⟩
  · rw [heq] at h
    simp at h
  · rw [heq] at h
    simp only [Option.some.injEq] at h
    rwa [← h]

/-- Ids assigned by one matching pass avoid the initially claimed set and
are pairwise distinct: no track is handed to two detections. -/
theorem matchLoop_nodup (τ : ℚ) (tracks : List (ℕ × Track)) :
    ∀ (faces : List Detection) (used : List ℕ) (idx : ℕ),
      (∀ x ∈ assignedIds (matchLoop τ tracks used idx faces), x ∉ used) ∧
      (assignedIds (matchLoop τ tracks used idx faces)).Nodup := by
  intro faces
  induction faces with
  | nil =>
    intro used idx
    constructor
    · intro x hx
      simp [matchLoop, assignedIds] at hx
    · simp [matchLoop, assignedIds]
  | cons face rest ih =>
    intro used idx
    simp only [matchLoop]
    rcases hb : (bestTrack τ (face.bbox.getD defaultBBox) used (none, 0) tracks).1 with
      _ | id
    · simp only [assignedIds, List.filterMap_cons]
      exact ih used (idx + 1)
    · simp only [assignedIds, List.filterMap_cons]
      obtain ⟨hall, hnd⟩ := ih (id :: used) (idx + 1)
      constructor
      · intro x hx
        rcases List.mem_cons.mp hx with hx | hx
        · rw [hx]
          exact bestTrack_some_not_used τ _ used tracks id hb
        · intro hxu
          exact hall x hx (List.mem_cons_of_mem id hxu)
      · refine List.nodup_cons.mpr ⟨?_, hnd⟩
        intro hid
        exact hall id hid (List.mem_cons_self id used)

/-! ## Claim C4 -/

/-- C4: the matcher returns exactly one pair per detection in input order;
a detection is assigned iff some track unclaimed by earlier detections has
overlap strictly above the threshold, the assigned track maximizes the
overlap among unclaimed tracks with ties resolved to the first-encountered
track, and no track is assigned to two detections (for any non-negative
threshold, e.g. the default 0.3). -/
theorem C4_matcher_contract (t : FaceTracker) (faces : List Detection)
    (hτ : 0 ≤ t.iou_threshold) :
    (match_faces_to_tracks t faces).length = faces.length ∧
    (∀ i (hi : i < (match_faces_to_tracks t faces).length),
      (match_faces_to_tracks t faces)[i].1 = i) ∧
    (∀ i (hi : i < (match_faces_to_tracks t faces).length) (hif : i < faces.length),
      greedyChoiceSpec t.iou_threshold t.tracks (faces[i].bbox.getD defaultBBox)
        (assignedIds ((match_faces_to_tracks t faces).take i))
        ((match_faces_to_tracks t faces)[i].2)) ∧
    (assignedIds (match_faces_to_tracks t faces)).Nodup := by
  refine ⟨matchLoop_length t.iou_threshold t.tracks faces [] 0, ?_, ?_,
    (matchLoop_nodup t.iou_threshold t.tracks faces [] 0).2⟩
  · intro i hi
    have h := matchLoop_fst t.iou_threshold t.tracks faces [] 0 i hi
    simpa using h
  · intro i hi hif
    have h := matchLoop_spec t.iou_threshold t.tracks hτ faces [] 0 i hi hif
    simpa using h

/-- A two-track registry for the matcher witness. -/
def c4tracker : FaceTracker :=
  { max_tracks := 3
    max_age_history := 10
    max_emotion_history := 5
    iou_threshold := 3 / 10
    max_missing_frames := 10
    tracks := [(0, ⟨[], [], [0, 0, 50, 50], 1, 1⟩), (1, ⟨[], [], [200, 200, 50, 50], 1, 1⟩)]
    next_track_id := 2
    frame_count := 1 }

/-- Two detections sitting exactly on the two tracked boxes. -/
def c4faces : List Detection :=
  [{ bbox := some [0, 0, 50, 50] }, { bbox := some [200, 200, 50, 50] }]

theorem C4_matcher_contract_witness :
    (match_faces_to_tracks c4tracker c4faces).length = c4faces.length ∧
    (∀ i (hi : i < (match_faces_to_tracks c4tracker c4faces).length),
      (match_faces_to_tracks c4tracker c4faces)[i].1 = i) ∧
    (∀ i (hi : i < (match_faces_to_tracks c4tracker c4faces).length)
      (hif : i < c4faces.length),
      greedyChoiceSpec c4tracker.iou_threshold c4tracker.tracks
        (c4faces[i].bbox.getD defaultBBox)
        (assignedIds ((match_faces_to_tracks c4tracker c4faces).take i))
        ((match_faces_to_tracks c4tracker c4faces)[i].2)) ∧
    (assignedIds (match_faces_to_tracks c4tracker c4faces)).Nodup :=
  C4_matcher_contract c4tracker c4faces (by norm_num [c4tracker])

/-! ## Lemmas about the track dictionary -/

theorem lookup_mem {l : List (ℕ × Track)} {id : ℕ} {tr : Track}
    (h : l.lookup id = some tr) : (id, tr) ∈ l := by
  induction l with
  | nil => simp [List.lookup] at h
  | cons p rest ih =>
    rw [List.lookup] at h
    by_cases hp : id = p.1
    · have hb : (id == p.1) = true := beq_iff_eq.mpr hp
      rw [hb] at h
      have hv : p.2 = tr := Option.some.inj h
      have hpq : (id, tr) = p := by rw [hp, ← hv]
      rw [hpq]
      exact List.mem_cons_self p rest
    · rw [beq_eq_false_iff_ne.mpr hp] at h
      exact List.mem_cons_of_mem p (ih h)

theorem setTrack_mem {l : List (ℕ × Track)} {id : ℕ} {tr : Track} :
    ∀ q ∈ setTrack l id tr, q ∈ l ∨ q = (id, tr) := by
  induction l with
  | nil =>
    intro q hq
    simp [setTrack] at hq
    right
    exact hq
  | cons p rest ih =>
    intro q hq
    rw [setTrack] at hq
    split at hq
    · rcases List.mem_cons.mp hq with hq | hq
      · right; exact hq
      · left; exact List.mem_cons_of_mem p hq
    · rcases List.mem_cons.mp hq with hq | hq
      · left; rw [hq]; exact List.mem_cons_self p rest
      · rcases ih q hq with h | h
        · left; exact List.mem_cons_of_mem p h
        · right; exact h

theorem setTrack_keys_of_mem {l : List (ℕ × Track)} {id : ℕ} (tr : Track)
    (h : id ∈ l.map Prod.fst) :
    (setTrack l id tr).map Prod.fst = l.map Prod.fst := by
  induction l with
  | nil => simp at h
  | cons p rest ih =>
    rw [setTrack]
    split
    · rename_i hp
      simp [hp]
    · rename_i hp
      simp only [List.map_cons, List.cons.injEq, true_and]
      apply ih
      simp only [List.map_cons, List.mem_cons] at h
      rcases h with h | h
      · exact absurd h.symm hp
      · exact h

theorem setTrack_append_of_not_mem {l : List (ℕ × Track)} {id : ℕ} (tr : Track)
    (h : id ∉ l.map Prod.fst) :
    setTrack l id tr = l ++ [(id, tr)] := by
  induction l with
  | nil => rfl
  | cons p rest ih =>
    rw [setTrack]
    split
    · rename_i hp
      exfalso
      apply h
      simp [hp]
    · rw [List.cons_append, ih]
      intro hc
      apply h
      simp only [List.map_cons, List.mem_cons]
      right
      exact hc

theorem setTrack_length_of_mem {l : List (ℕ × Track)} {id : ℕ} (tr : Track)
    (h : id ∈ l.map Prod.fst) :
    (setTrack l id tr).length = l.length := by
  have := setTrack_keys_of_mem tr h
  have hl : ((setTrack l id tr).map Prod.fst).length = (l.map Prod.fst).length := by
    rw [this]
  simpa using hl

theorem setTrack_mem_of_ne {l : List (ℕ × Track)} {id k : ℕ} {tr v : Track}
    (hne : k ≠ id) : (k, v) ∈ setTrack l id tr ↔ (k, v) ∈ l := by
  induction l with
  | nil =>
    simp only [setTrack, List.mem_singleton, List.not_mem_nil, iff_false]
    intro h
    exact hne (congrArg Prod.fst h)
  | cons p rest ih =>
    rw [setTrack]
    split
    · rename_i hp
      constructor
      · intro h
        rcases List.mem_cons.mp h with h | h
        · exact absurd (congrArg Prod.fst h) hne
        · exact List.mem_cons_of_mem p h
      · intro h
        rcases List.mem_cons.mp h with h | h
        · exfalso
          apply hne
          have hk : k = p.1 := congrArg Prod.fst h
          rw [hk, hp]
        · exact List.mem_cons_of_mem (id, tr) h
    · constructor
      · intro h
        rcases List.mem_cons.mp h with h | h
        · rw [h]; exact List.mem_cons_self p rest
        · exact List.mem_cons_of_mem p (ih.mp h)
      · intro h
        rcases List.mem_cons.mp h with h | h
        · rw [h]; exact List.mem_cons_self p (setTrack rest id tr)
        · exact List.mem_cons_of_mem p (ih.mpr h)

theorem mem_keys_setTrack {l : List (ℕ × Track)} {id : ℕ} {tr : Track} {x : ℕ}
    (h : x ∈ l.map Prod.fst) : x ∈ (setTrack l id tr).map Prod.fst := by
  by_cases hid : id ∈ l.map Prod.fst
  · rwa [setTrack_keys_of_mem tr hid]
  · rw [setTrack_append_of_not_mem tr hid]
    simp only [List.map_append, List.mem_append]
    left
    exact h

/-! ## Lemmas about the per-detection update -/

theorem smooth_age_len (m fc : ℕ) (hist0 : List AgeSample) (a c : ℚ)
    (h : hist0.length ≤ m) : (smooth_age_prediction m fc hist0 a c).1.length ≤ m := by
  rw [smooth_age_hist]
  split
  · simp only [List.length_tail, List.length_append, List.length_singleton]
    omega
  · rename_i hl
    simp only [gt_iff_lt, not_lt, List.length_append, List.length_singleton] at hl
    simp only [List.length_append, List.length_singleton]
    omega

theorem smooth_emotion_len (m fc : ℕ) (hist0 : List EmoSample)
    (em : List (String × ℚ)) (dom : String) (c : ℚ)
    (h : hist0.length ≤ m) :
    (smooth_emotion_prediction m fc hist0 em dom c).1.length ≤ m := by
  rw [smooth_emotion_hist]
  split
  · simp only [List.length_tail, List.length_append, List.length_singleton]
    omega
  · rename_i hl
    simp only [gt_iff_lt, not_lt, List.length_append, List.length_singleton] at hl
    simp only [List.length_append, List.length_singleton]
    omega

theorem applyCore_last_seen (mah meh fc id : ℕ) (tr : Track) (face : Detection) :
    (applyCore mah meh fc id tr face).1.last_seen = fc := by
  unfold applyCore
  cases hage : face.age <;> cases hemo : face.emotions <;> dsimp only <;> try split
  all_goals rfl

theorem applyCore_created (mah meh fc id : ℕ) (tr : Track) (face : Detection) :
    (applyCore mah meh fc id tr face).1.created_frame = tr.created_frame := by
  unfold applyCore
  cases hage : face.age <;> cases hemo : face.emotions <;> dsimp only <;> try split
  all_goals rfl

theorem applyCore_age_len (mah meh fc id : ℕ) (tr : Track) (face : Detection)
    (hb : tr.age_history.length ≤ mah) :
    (applyCore mah meh fc id tr face).1.age_history.length ≤ mah := by
  unfold applyCore
  cases hage : face.age <;> cases hemo : face.emotions <;> dsimp only <;> try split
  all_goals first | exact hb | exact smooth_age_len _ _ _ _ _ hb

theorem applyCore_emotion_len (mah meh fc id : ℕ) (tr : Track) (face : Detection)
    (hb : tr.emotion_history.length ≤ meh) :
    (applyCore mah meh fc id tr face).1.emotion_history.length ≤ meh := by
  unfold applyCore
  cases hage : face.age <;> cases hemo : face.emotions <;> dsimp only <;> try split
  all_goals first | exact hb | exact smooth_emotion_len _ _ _ _ _ _ hb

theorem applyTrack_state (t : FaceTracker) (id : ℕ) (face : Detection) :
    (applyTrack t id face).1 = t ∨
    ∃ tr, t.tracks.lookup id = some tr ∧
      (applyTrack t id face).1 =
        { t with tracks := setTrack t.tracks id (applyCore t.max_age_history t.max_emotion_history t.frame_count id tr face).1 } := by
  unfold applyTrack
  cases h : t.tracks.lookup id
  · left; rfl
  · right; exact ⟨_, rfl, rfl⟩

theorem applyTrack_fields (t : FaceTracker) (id : ℕ) (face : Detection) :
    (applyTrack t id face).1.frame_count = t.frame_count ∧
    (applyTrack t id face).1.max_tracks = t.max_tracks ∧
    (applyTrack t id face).1.max_age_history = t.max_age_history ∧
    (applyTrack t id face).1.max_emotion_history = t.max_emotion_history ∧
    (applyTrack t id face).1.iou_threshold = t.iou_threshold ∧
    (applyTrack t id face).1.max_missing_frames = t.max_missing_frames ∧
    (applyTrack t id face).1.next_track_id = t.next_track_id := by
  rcases applyTrack_state t id face with h | ⟨tr, _, h⟩ <;> rw [h] <;>
    exact ⟨rfl, rfl, rfl, rfl, rfl, rfl, rfl⟩

/-- The registry invariant: bounded capacity, fresh strictly-smaller track
ids, duplicate-free keys, bounded histories and plausible timestamps. -/
def RegInv (t : FaceTracker) : Prop :=
  t.tracks.length ≤ t.max_tracks ∧
  (∀ p ∈ t.tracks, p.1 < t.next_track_id) ∧
  (t.tracks.map Prod.fst).Nodup ∧
  (∀ p ∈ t.tracks, p.2.age_history.length ≤ t.max_age_history ∧
    p.2.emotion_history.length ≤ t.max_emotion_history ∧
    p.2.last_seen ≤ t.frame_count)

theorem applyTrack_inv (t : FaceTracker) (id : ℕ) (face : Detection)
    (hinv : RegInv t) : RegInv (applyTrack t id face).1 := by
  obtain ⟨hcap, hfresh, hnd, hbounds⟩ := hinv
  rcases applyTrack_state t id face with h | ⟨tr, hlook, h⟩
  · rw [h]; exact ⟨hcap, hfresh, hnd, hbounds⟩
  · rw [h]
    have hidmem : id ∈ t.tracks.map Prod.fst := by
      have := lookup_mem hlook
      exact List.mem_map.mpr ⟨(id, tr), this, rfl⟩
    have hkeys := setTrack_keys_of_mem
      (applyCore t.max_age_history t.max_emotion_history t.frame_count id tr face).1 hidmem
    refine ⟨?_, ?_, ?_, ?_⟩
    · have := setTrack_length_of_mem
        (applyCore t.max_age_history t.max_emotion_history t.frame_count id tr face).1 hidmem
      simpa [this] using hcap
    · intro p hp
      rcases setTrack_mem p hp with hp' | hp'
      · exact hfresh p hp'
      · rw [hp']
        exact hfresh (id, tr) (lookup_mem hlook)
    · simpa [hkeys] using hnd
    · intro p hp
      rcases setTrack_mem p hp with hp' | hp'
      · exact hbounds p hp'
      · rw [hp']
        obtain ⟨hta, hte, _⟩ := hbounds (id, tr) (lookup_mem hlook)
        exact ⟨applyCore_age_len _ _ _ _ _ _ hta,
          applyCore_emotion_len _ _ _ _ _ _ hte,
          le_of_eq (applyCore_last_seen _ _ _ _ _ _)⟩

/-! ## Preservation through the per-frame loop -/

/-- Configuration and counter facts preserved by one or more loop steps. -/
def SameCfg (t t' : FaceTracker) : Prop :=
  t'.frame_count = t.frame_count ∧ t'.max_tracks = t.max_tracks ∧
  t'.max_age_history = t.max_age_history ∧
  t'.max_emotion_history = t.max_emotion_history ∧
  t'.iou_threshold = t.iou_threshold ∧
  t'.max_missing_frames = t.max_missing_frames ∧
  t.next_track_id ≤ t'.next_track_id

theorem sameCfg_refl (t : FaceTracker) : SameCfg t t :=
  ⟨rfl, rfl, rfl, rfl, rfl, rfl, le_refl _⟩

theorem sameCfg_trans {t1 t2 t3 : FaceTracker}
    (h1 : SameCfg t1 t2) (h2 : SameCfg t2 t3) : SameCfg t1 t3 := by
  obtain ⟨a1, b1, c1, d1, e1, f1, g1⟩ := h1
  obtain ⟨a2, b2, c2, d2, e2, f2, g2⟩ := h2
  exact ⟨a2.trans a1, b2.trans b1, c2.trans c1, d2.trans d1, e2.trans e1,
    f2.trans f1, le_trans g1 g2⟩

theorem applyTrack_sameCfg (t : FaceTracker) (id : ℕ) (face : Detection) :
    SameCfg t (applyTrack t id face).1 := by
  obtain ⟨a, b, c, d, e, f, g⟩ := applyTrack_fields t id face
  exact ⟨a, b, c, d, e, f, le_of_eq g.symm⟩

theorem createTrack_sameCfg (t : FaceTracker) (face : Detection) :
    SameCfg t (createTrack t face).1 :=
  ⟨rfl, rfl, rfl, rfl, rfl, rfl, Nat.le_succ _⟩

theorem createTrack_snd (t : FaceTracker) (face : Detection) :
    (createTrack t face).2 = t.next_track_id := rfl

theorem createTrack_next (t : FaceTracker) (face : Detection) :
    (createTrack t face).1.next_track_id = t.next_track_id + 1 := rfl

theorem processAll_sameCfg :
    ∀ (pairs : List (Detection × Option ℕ)) (t : FaceTracker) (active : List ℕ)
      (out : List Detection), SameCfg t (processAll t active out pairs).1 := by
  intro pairs
  induction pairs with
  | nil => intro t active out; exact sameCfg_refl t
  | cons q rest ih =>
    intro t active out
    obtain ⟨face, m⟩ := q
    rcases m with _ | id
    · simp only [processAll]
      split
      · rcases hA : applyTrack (createTrack t face).1 (createTrack t face).2 face with
          ⟨t2, fo⟩
        have hcfg : SameCfg t t2 := by
          have h1 := createTrack_sameCfg t face
          have h2 := applyTrack_sameCfg (createTrack t face).1 (createTrack t face).2 face
          rw [hA] at h2
          exact sameCfg_trans h1 h2
        rcases fo with _ | f
        · exact hcfg
        · exact sameCfg_trans hcfg (ih t2 _ _)
      · exact ih t active (out ++ [face])
    · simp only [processAll]
      rcases hA : applyTrack t id face with ⟨t1, fo⟩
      have hcfg : SameCfg t t1 := by
        have h2 := applyTrack_sameCfg t id face
        rw [hA] at h2
        exact h2
      rcases fo with _ | f
      · exact hcfg
      · exact sameCfg_trans hcfg (ih t1 _ _)

theorem createTrack_inv (t : FaceTracker) (face : Detection)
    (hlt : t.tracks.length < t.max_tracks) (hinv : RegInv t) :
    RegInv (createTrack t face).1 := by
  obtain ⟨hcap, hfresh, hnd, hbounds⟩ := hinv
  have hnotmem : t.next_track_id ∉ t.tracks.map Prod.fst := by
    intro hmem
    obtain ⟨p, hp, hpx⟩ := List.mem_map.mp hmem
    have := hfresh p hp
    omega
  have happ := setTrack_append_of_not_mem
    (newTrack (face.bbox.getD defaultBBox) t.frame_count) hnotmem
  refine ⟨?_, ?_, ?_, ?_⟩
  · show (setTrack t.tracks t.next_track_id _).length ≤ t.max_tracks
    rw [happ]
    simp only [List.length_append, List.length_singleton]
    omega
  · intro p hp
    rcases setTrack_mem p hp with hp' | hp'
    · have := hfresh p hp'
      show p.1 < t.next_track_id + 1
      omega
    · rw [hp']
      exact Nat.lt_succ_self _
  · show ((setTrack t.tracks t.next_track_id _).map Prod.fst).Nodup
    rw [happ]
    simp only [List.map_append, List.map_cons, List.map_nil]
    rw [List.nodup_append]
    refine ⟨hnd, List.nodup_singleton _, ?_⟩
    intro x hx
    simp only [List.mem_singleton]
    intro hc
    rw [hc] at hx
    exact hnotmem hx
  · intro p hp
    rcases setTrack_mem p hp with hp' | hp'
    · exact hbounds p hp'
    · rw [hp']
      exact ⟨Nat.zero_le _, Nat.zero_le _, le_refl _⟩

theorem processAll_inv :
    ∀ (pairs : List (Detection × Option ℕ)) (t : FaceTracker) (active : List ℕ)
      (out : List Detection), RegInv t → RegInv (processAll t active out pairs).1 := by
  intro pairs
  induction pairs with
  | nil => intro t active out hinv; exact hinv
  | cons q rest ih =>
    intro t active out hinv
    obtain ⟨face, m⟩ := q
    rcases m with _ | id
    · simp only [processAll]
      split
      · rename_i hlt
        rcases hA : applyTrack (createTrack t face).1 (createTrack t face).2 face with
          ⟨t2, fo⟩
        have hinv2 : RegInv t2 := by
          have h1 := createTrack_inv t face hlt hinv
          have h2 := applyTrack_inv (createTrack t face).1 (createTrack t face).2 face h1
          rw [hA] at h2
          exact h2
        rcases fo with _ | f
        · exact hinv2
        · exact ih t2 _ _ hinv2
      · exact ih t active (out ++ [face]) hinv
    · simp only [processAll]
      rcases hA : applyTrack t id face with ⟨t1, fo⟩
      have hinv1 : RegInv t1 := by
        have h2 := applyTrack_inv t id face hinv
        rw [hA] at h2
        exact h2
      rcases fo with _ | f
      · exact hinv1
      · exact ih t1 _ _ hinv1

theorem removeStale_inv (t : FaceTracker) (active : List ℕ) (hinv : RegInv t) :
    RegInv (removeStale t active) := by
  obtain ⟨hcap, hfresh, hnd, hbounds⟩ := hinv
  refine ⟨?_, ?_, ?_, ?_⟩
  · exact le_trans (List.length_filter_le _ _) hcap
  · intro p hp
    exact hfresh p (List.mem_of_mem_filter hp)
  · exact List.Nodup.sublist ((List.filter_sublist _).map Prod.fst) hnd
  · intro p hp
    exact hbounds p (List.mem_of_mem_filter hp)

/-- Unfolding `update_tracks` after naming the incremented state and the
loop result. -/
theorem update_tracks_eq (t : FaceTracker) (faces : List Detection)
    (t1 : FaceTracker) (ht1 : t1 = { t with frame_count := t.frame_count + 1 })
    (r : FaceTracker × List ℕ × Option (List Detection))
    (hr : r = processAll t1 [] []
      (faces.zip ((match_faces_to_tracks t1 faces).map (·.2)))) :
    update_tracks t faces =
      (match r.2.2 with
       | some out => (removeStale r.1 r.2.1, some out)
       | none => (r.1, none)) := by
  subst ht1
  subst hr
  rfl

theorem frameBump_inv (t : FaceTracker) (hinv : RegInv t) :
    RegInv { t with frame_count := t.frame_count + 1 } := by
  obtain ⟨hcap, hfresh, hnd, hbounds⟩ := hinv
  refine ⟨hcap, hfresh, hnd, ?_⟩
  intro p hp
  obtain ⟨h1, h2, h3⟩ := hbounds p hp
  exact ⟨h1, h2, le_trans h3 (Nat.le_succ _)⟩

theorem update_tracks_inv (t : FaceTracker) (faces : List Detection)
    (hinv : RegInv t) : RegInv (update_tracks t faces).1 := by
  set t1 : FaceTracker := { t with frame_count := t.frame_count + 1 } with ht1
  set r := processAll t1 [] []
    (faces.zip ((match_faces_to_tracks t1 faces).map (·.2))) with hr
  have hkey := update_tracks_eq t faces t1 ht1 r hr
  have hinvP : RegInv r.1 := by
    rw [hr]
    exact processAll_inv _ _ [] [] (frameBump_inv t hinv)
  rw [hkey]
  rcases hoo : r.2.2 with _ | out
  · exact hinvP
  · exact removeStale_inv r.1 r.2.1 hinvP

theorem update_tracks_cfg (t : FaceTracker) (faces : List Detection) :
    (update_tracks t faces).1.max_tracks = t.max_tracks ∧
    (update_tracks t faces).1.max_age_history = t.max_age_history ∧
    (update_tracks t faces).1.max_emotion_history = t.max_emotion_history ∧
    (update_tracks t faces).1.iou_threshold = t.iou_threshold ∧
    (update_tracks t faces).1.max_missing_frames = t.max_missing_frames ∧
    (update_tracks t faces).1.frame_count = t.frame_count + 1 ∧
    t.next_track_id ≤ (update_tracks t faces).1.next_track_id := by
  set t1 : FaceTracker := { t with frame_count := t.frame_count + 1 } with ht1
  set r := processAll t1 [] []
    (faces.zip ((match_faces_to_tracks t1 faces).map (·.2))) with hr
  have hkey := update_tracks_eq t faces t1 ht1 r hr
  have hcfg : SameCfg t1 r.1 := by
    rw [hr]
    exact processAll_sameCfg _ _ [] []
  obtain ⟨a, b, c, d, e, f, g⟩ := hcfg
  rw [hkey]
  rcases hoo : r.2.2 with _ | out
  · exact ⟨b, c, d, e, f, a, g⟩
  · exact ⟨b, c, d, e, f, a, g⟩

theorem runFrames_inv (inputs : List (List Detection)) :
    ∀ t : FaceTracker, RegInv t → RegInv (runFrames t inputs) := by
  induction inputs with
  | nil => intro t h; exact h
  | cons fs rest ih =>
    intro t h
    exact ih _ (update_tracks_inv t fs h)

theorem runFrames_max_tracks (inputs : List (List Detection)) :
    ∀ t : FaceTracker, (runFrames t inputs).max_tracks = t.max_tracks := by
  induction inputs with
  | nil => intro t; rfl
  | cons fs rest ih =>
    intro t
    rw [runFrames, ih, (update_tracks_cfg t fs).1]

theorem initTracker_inv (mt mah meh : ℕ) (τ : ℚ) (mmf : ℕ) :
    RegInv (initTracker mt mah meh τ mmf) := by
  refine ⟨?_, ?_, ?_, ?_⟩ <;> simp [initTracker]

/-! ## No creation at capacity -/

theorem applyTrack_keys (t : FaceTracker) (id : ℕ) (face : Detection) :
    (applyTrack t id face).1.tracks.map Prod.fst = t.tracks.map Prod.fst := by
  rcases applyTrack_state t id face with h | ⟨tr, hlook, h⟩
  · rw [h]
  · rw [h]
    exact setTrack_keys_of_mem _
      (List.mem_map.mpr ⟨(id, tr), lookup_mem hlook, rfl⟩)

theorem processAll_full :
    ∀ (pairs : List (Detection × Option ℕ)) (t : FaceTracker) (active : List ℕ)
      (out : List Detection), t.max_tracks ≤ t.tracks.length →
      (processAll t active out pairs).1.next_track_id = t.next_track_id ∧
      (processAll t active out pairs).1.tracks.map Prod.fst = t.tracks.map Prod.fst := by
  intro pairs
  induction pairs with
  | nil => intro t active out _; exact ⟨rfl, rfl⟩
  | cons q rest ih =>
    intro t active out hfull
    obtain ⟨face, m⟩ := q
    have step : ∀ (t' : FaceTracker) (id : ℕ),
        t'.tracks.map Prod.fst = t.tracks.map Prod.fst →
        t'.next_track_id = t.next_track_id →
        t'.max_tracks = t.max_tracks →
        (applyTrack t' id face).1.tracks.map Prod.fst = t.tracks.map Prod.fst ∧
        (applyTrack t' id face).1.next_track_id = t.next_track_id ∧
        (applyTrack t' id face).1.max_tracks = t.max_tracks := by
      intro t' id hk hn hm
      obtain ⟨_, hb, _, _, _, _, hg⟩ := applyTrack_fields t' id face
      exact ⟨(applyTrack_keys t' id face).trans hk, hg.trans hn, hb.trans hm⟩
    rcases m with _ | id
    · simp only [processAll]
      split
      · rename_i hlt
        exfalso
        omega
      · exact ih t active (out ++ [face]) hfull
    · simp only [processAll]
      rcases hA : applyTrack t id face with ⟨t1, fo⟩
      obtain ⟨hk, hn, hm⟩ := step t id rfl rfl rfl
      rw [hA] at hk hn hm
      dsimp only at hk hn hm
      rcases fo with _ | f
      · exact ⟨hn, hk⟩
      · have hfull1 : t1.max_tracks ≤ t1.tracks.length := by
          have hlen : t1.tracks.length = t.tracks.length := by
            have := congrArg List.length hk
            simpa using this
          omega
        obtain ⟨ha, hb⟩ := ih t1 (id :: active) (out ++ [f]) hfull1
        exact ⟨ha.trans hn, hb.trans hk⟩

theorem update_tracks_full (t : FaceTracker) (faces : List Detection)
    (hfull : t.max_tracks ≤ t.tracks.length) :
    (update_tracks t faces).1.next_track_id = t.next_track_id ∧
    ∀ p ∈ (update_tracks t faces).1.tracks, p.1 ∈ t.tracks.map Prod.fst := by
  set t1 : FaceTracker := { t with frame_count := t.frame_count + 1 } with ht1
  set r := processAll t1 [] []
    (faces.zip ((match_faces_to_tracks t1 faces).map (·.2))) with hr
  have hkey := update_tracks_eq t faces t1 ht1 r hr
  have hPF : r.1.next_track_id = t1.next_track_id ∧
      r.1.tracks.map Prod.fst = t1.tracks.map Prod.fst := by
    rw [hr]
    exact processAll_full _ _ [] [] hfull
  rw [hkey]
  rcases hoo : r.2.2 with _ | out
  · refine ⟨hPF.1, ?_⟩
    intro p hp
    rw [show t.tracks = t1.tracks from rfl, ← hPF.2]
    exact List.mem_map.mpr ⟨p, hp, rfl⟩
  · refine ⟨hPF.1, ?_⟩
    intro p hp
    have hp' : p ∈ r.1.tracks := List.mem_of_mem_filter hp
    rw [show t.tracks = t1.tracks from rfl, ← hPF.2]
    exact List.mem_map.mpr ⟨p, hp', rfl⟩

/-! ## Claim C5 -/

/-- C5: starting from a fresh tracker, after any sequence of
`update_tracks` calls the number of live tracks never exceeds
`max_tracks`, and every live track id is strictly below the monotonically
increasing `next_track_id`; moreover, once the registry is full a call
allocates no new id and every surviving track key already existed, i.e. a
new track is created only strictly below capacity. -/
theorem C5_capacity_invariant (mt mah meh : ℕ) (τ : ℚ) (mmf : ℕ)
    (inputs : List (List Detection)) :
    ((runFrames (initTracker mt mah meh τ mmf) inputs).tracks.length ≤ mt ∧
     ∀ p ∈ (runFrames (initTracker mt mah meh τ mmf) inputs).tracks,
       p.1 < (runFrames (initTracker mt mah meh τ mmf) inputs).next_track_id) ∧
    (∀ (t : FaceTracker) (faces : List Detection), t.max_tracks ≤ t.tracks.length →
      (update_tracks t faces).1.next_track_id = t.next_track_id ∧
      ∀ p ∈ (update_tracks t faces).1.tracks, p.1 ∈ t.tracks.map Prod.fst) := by
  constructor
  · obtain ⟨hcap, hfresh, _, _⟩ :=
      runFrames_inv inputs _ (initTracker_inv mt mah meh τ mmf)
    refine ⟨?_, hfresh⟩
    have hmt := runFrames_max_tracks inputs (initTracker mt mah meh τ mmf)
    rw [hmt] at hcap
    exact hcap
  · intro t faces hfull
    exact update_tracks_full t faces hfull

/-- A registry at capacity (2 live tracks, `max_tracks = 2`). -/
def c5tracker : FaceTracker :=
  { max_tracks := 2
    max_age_history := 10
    max_emotion_history := 5
    iou_threshold := 3 / 10
    max_missing_frames := 10
    tracks := [(0, ⟨[], [], [0, 0, 50, 50], 1, 1⟩), (1, ⟨[], [], [200, 200, 50, 50], 1, 1⟩)]
    next_track_id := 2
    frame_count := 1 }

theorem C5_capacity_invariant_witness :
    ((runFrames (initTracker 1 10 5 (3 / 10) 10) [c4faces, c4faces]).tracks.length ≤ 1 ∧
     ∀ p ∈ (runFrames (initTracker 1 10 5 (3 / 10) 10) [c4faces, c4faces]).tracks,
       p.1 < (runFrames (initTracker 1 10 5 (3 / 10) 10) [c4faces, c4faces]).next_track_id) ∧
    ((update_tracks c5tracker c4faces).1.next_track_id = c5tracker.next_track_id ∧
     ∀ p ∈ (update_tracks c5tracker c4faces).1.tracks,
       p.1 ∈ c5tracker.tracks.map Prod.fst) :=
  ⟨(C5_capacity_invariant 1 10 5 (3 / 10) 10 [c4faces, c4faces]).1,
   (C5_capacity_invariant 2 10 5 (3 / 10) 10 []).2 c5tracker c4faces
     (by norm_num [c5tracker])⟩

theorem runFrames_histcfg (inputs : List (List Detection)) :
    ∀ t : FaceTracker,
      (runFrames t inputs).max_age_history = t.max_age_history ∧
      (runFrames t inputs).max_emotion_history = t.max_emotion_history ∧
      (runFrames t inputs).max_missing_frames = t.max_missing_frames := by
  induction inputs with
  | nil => intro t; exact ⟨rfl, rfl, rfl⟩
  | cons fs rest ih =>
    intro t
    obtain ⟨a, b, c⟩ := ih (update_tracks t fs).1
    obtain ⟨_, ha, hb, _, hc, _, _⟩ := update_tracks_cfg t fs
    exact ⟨by rw [runFrames, a, ha], by rw [runFrames, b, hb], by rw [runFrames, c, hc]⟩

/-! ## Claim C6 -/

/-- C6: after any number of `update_tracks` calls every live track
satisfies `len(age_history) ≤ max_age_history` and `len(emotion_history) ≤
max_emotion_history`; and when a history is at capacity, appending the new
sample evicts exactly the oldest retained sample (FIFO): the retained
history becomes `tail(old) ++ [new]`. -/
theorem C6_bounded_history (mt mah meh : ℕ) (τ : ℚ) (mmf : ℕ)
    (inputs : List (List Detection)) :
    (∀ p ∈ (runFrames (initTracker mt mah meh τ mmf) inputs).tracks,
      p.2.age_history.length ≤ mah ∧ p.2.emotion_history.length ≤ meh) ∧
    (∀ (m fc : ℕ) (hist : List AgeSample) (a c : ℚ), hist.length = m →
      (smooth_age_prediction m fc hist a c).1 =
        (hist ++ [(⟨a, c, fc⟩ : AgeSample)]).tail) ∧
    (∀ (m fc : ℕ) (hist : List EmoSample) (em : List (String × ℚ))
      (dom : String) (c : ℚ), hist.length = m →
      (smooth_emotion_prediction m fc hist em dom c).1 =
        (hist ++ [(⟨em, dom, c, fc⟩ : EmoSample)]).tail) ∧
    (∀ (m fc : ℕ) (hist : List AgeSample) (a c : ℚ), hist.length = m → 0 < m →
      (smooth_age_prediction m fc hist a c).1 =
        hist.tail ++ [(⟨a, c, fc⟩ : AgeSample)]) ∧
    (∀ (m fc : ℕ) (hist : List EmoSample) (em : List (String × ℚ))
      (dom : String) (c : ℚ), hist.length = m → 0 < m →
      (smooth_emotion_prediction m fc hist em dom c).1 =
        hist.tail ++ [(⟨em, dom, c, fc⟩ : EmoSample)]) := by
  have htailA : ∀ (m fc : ℕ) (hist : List AgeSample) (a c : ℚ), hist.length = m →
      (smooth_age_prediction m fc hist a c).1 =
        (hist ++ [(⟨a, c, fc⟩ : AgeSample)]).tail := by
    intro m fc hist a c hlen
    rw [smooth_age_hist]
    split
    · rfl
    · rename_i hl
      exfalso
      simp only [gt_iff_lt, not_lt, List.length_append, List.length_singleton] at hl
      omega
  have htailE : ∀ (m fc : ℕ) (hist : List EmoSample) (em : List (String × ℚ))
      (dom : String) (c : ℚ), hist.length = m →
      (smooth_emotion_prediction m fc hist em dom c).1 =
        (hist ++ [(⟨em, dom, c, fc⟩ : EmoSample)]).tail := by
    intro m fc hist em dom c hlen
    rw [smooth_emotion_hist]
    split
    · rfl
    · rename_i hl
      exfalso
      simp only [gt_iff_lt, not_lt, List.length_append, List.length_singleton] at hl
      omega
  refine ⟨?_, htailA, htailE, ?_, ?_⟩
  · intro p hp
    obtain ⟨_, _, _, hbounds⟩ :=
      runFrames_inv inputs _ (initTracker_inv mt mah meh τ mmf)
    obtain ⟨h1, h2, _⟩ := hbounds p hp
    obtain ⟨ha, hb, _⟩ := runFrames_histcfg inputs (initTracker mt mah meh τ mmf)
    rw [ha] at h1
    rw [hb] at h2
    exact ⟨h1, h2⟩
  · intro m fc hist a c hlen hpos
    rw [htailA m fc hist a c hlen]
    cases hist with
    | nil => simp at hlen; omega
    | cons x xs => rfl
  · intro m fc hist em dom c hlen hpos
    rw [htailE m fc hist em dom c hlen]
    cases hist with
    | nil => simp at hlen; omega
    | cons x xs => rfl

theorem C6_bounded_history_witness :
    (∀ p ∈ (runFrames (initTracker 3 2 2 (3 / 10) 10) [c4faces]).tracks,
      p.2.age_history.length ≤ 2 ∧ p.2.emotion_history.length ≤ 2) ∧
    (smooth_age_prediction 2 3 [⟨20, 1, 1⟩, ⟨21, 1, 2⟩] 22 1).1 =
      [⟨21, 1, 2⟩, ⟨22, 1, 3⟩] := by
  refine ⟨(C6_bounded_history 3 2 2 (3 / 10) 10 [c4faces]).1, ?_⟩
  have h := (C6_bounded_history 3 2 2 (3 / 10) 10 [c4faces]).2.2.2.1
    2 3 [⟨20, 1, 1⟩, ⟨21, 1, 2⟩] 22 1 rfl (by norm_num)
  rw [h]
  rfl

/-! ## Lemmas for the eviction law -/

theorem applyTrack_mem_of_ne (t : FaceTracker) (id : ℕ) (face : Detection)
    {k : ℕ} {v : Track} (hk : (k, v) ∈ t.tracks) (hne : k ≠ id) :
    (k, v) ∈ (applyTrack t id face).1.tracks := by
  rcases applyTrack_state t id face with h | ⟨tr, hlook, h⟩
  · rw [h]; exact hk
  · rw [h]
    exact (setTrack_mem_of_ne hne).mpr hk

theorem nodup_keys_eq {l : List (ℕ × Track)} (hnd : (l.map Prod.fst).Nodup)
    {k : ℕ} {v1 v2 : Track} (h1 : (k, v1) ∈ l) (h2 : (k, v2) ∈ l) : v1 = v2 := by
  induction l with
  | nil => simp at h1
  | cons p rest ih =>
    simp only [List.map_cons, List.nodup_cons] at hnd
    rcases List.mem_cons.mp h1 with h1 | h1 <;> rcases List.mem_cons.mp h2 with h2 | h2
    · rw [← h1] at h2
      exact (congrArg Prod.snd h2.symm)
    · exfalso
      apply hnd.1
      rw [← congrArg Prod.fst h1]
      exact List.mem_map.mpr ⟨(k, v2), h2, rfl⟩
    · exfalso
      apply hnd.1
      rw [← congrArg Prod.fst h2]
      exact List.mem_map.mpr ⟨(k, v1), h1, rfl⟩
    · exact ih hnd.2 h1 h2

/-- Tracks whose id is neither matched by any pair nor freshly allocated
survive the loop with their record untouched. -/
theorem processAll_mem_preserve :
    ∀ (pairs : List (Detection × Option ℕ)) (t : FaceTracker) (active : List ℕ)
      (out : List Detection) (id : ℕ) (tr : Track),
      (id, tr) ∈ t.tracks → id < t.next_track_id →
      (∀ q ∈ pairs, q.2 ≠ some id) →
      (id, tr) ∈ (processAll t active out pairs).1.tracks := by
  intro pairs
  induction pairs with
  | nil => intro t active out id tr hmem _ _; exact hmem
  | cons q rest ih =>
    intro t active out id tr hmem hfresh hnot
    obtain ⟨face, m⟩ := q
    have hnotrest : ∀ q ∈ rest, q.2 ≠ some id := fun q hq =>
      hnot q (List.mem_cons_of_mem _ hq)
    rcases m with _ | j
    · simp only [processAll]
      split
      · rename_i hlt
        have hne : id ≠ (createTrack t face).2 := by
          rw [createTrack_snd]
          omega
        have hmem1 : (id, tr) ∈ (createTrack t face).1.tracks :=
          (setTrack_mem_of_ne hne).mpr hmem
        rcases hA : applyTrack (createTrack t face).1 (createTrack t face).2 face with
          ⟨t2, fo⟩
        have hmem2 : (id, tr) ∈ t2.tracks := by
          have := applyTrack_mem_of_ne (createTrack t face).1 (createTrack t face).2
            face hmem1 hne
          rw [hA] at this
          exact this
        have hfresh2 : id < t2.next_track_id := by
          have h1 : t.next_track_id ≤ (createTrack t face).1.next_track_id :=
            (createTrack_sameCfg t face).2.2.2.2.2.2
          have h2 := (applyTrack_fields (createTrack t face).1 (createTrack t face).2 face).2.2.2.2.2.2
          rw [hA] at h2
          dsimp only at h2
          omega
        rcases fo with _ | f
        · exact hmem2
        · exact ih t2 _ _ id tr hmem2 hfresh2 hnotrest
      · exact ih t active (out ++ [face]) id tr hmem hfresh hnotrest
    · simp only [processAll]
      have hne : id ≠ j := by
        intro hc
        exact hnot (face, some j) (List.mem_cons_self _ _) (by rw [hc])
      rcases hA : applyTrack t j face with ⟨t1, fo⟩
      have hmem1 : (id, tr) ∈ t1.tracks := by
        have := applyTrack_mem_of_ne t j face hmem hne
        rw [hA] at this
        exact this
      have hfresh1 : id < t1.next_track_id := by
        have h2 := (applyTrack_fields t j face).2.2.2.2.2.2
        rw [hA] at h2
        dsimp only at h2
        omega
      rcases fo with _ | f
      · exact hmem1
      · exact ih t1 _ _ id tr hmem1 hfresh1 hnotrest

/-- Every id in the final `active_track_ids` set was there initially, was
assigned by some pair, or is a freshly allocated id. -/
theorem processAll_active_sub :
    ∀ (pairs : List (Detection × Option ℕ)) (t : FaceTracker) (active : List ℕ)
      (out : List Detection) (x : ℕ),
      x ∈ (processAll t active out pairs).2.1 →
      x ∈ active ∨ (∃ q ∈ pairs, q.2 = some x) ∨ t.next_track_id ≤ x := by
  intro pairs
  induction pairs with
  | nil => intro t active out x hx; exact Or.inl hx
  | cons q rest ih =>
    intro t active out x hx
    obtain ⟨face, m⟩ := q
    rcases m with _ | j
    · simp only [processAll] at hx
      split at hx
      · rcases hA : applyTrack (createTrack t face).1 (createTrack t face).2 face with
          ⟨t2, fo⟩
        rw [hA] at hx
        have hnext2 : t.next_track_id + 1 ≤ t2.next_track_id := by
          have h2 := (applyTrack_fields (createTrack t face).1 (createTrack t face).2 face).2.2.2.2.2.2
          rw [hA] at h2
          dsimp only at h2
          have h3 := createTrack_next t face
          omega
        rcases fo with _ | f
        · dsimp only at hx
          rcases List.mem_cons.mp hx with hx | hx
          · right; right
            rw [hx, createTrack_snd]
          · exact Or.inl hx
        · dsimp only at hx
          rcases ih t2 _ _ x hx with h | h | h
          · rcases List.mem_cons.mp h with h | h
            · right; right
              rw [h, createTrack_snd]
            · exact Or.inl h
          · right; left
            obtain ⟨q, hq, hq2⟩ := h
            exact ⟨q, List.mem_cons_of_mem _ hq, hq2⟩
          · right; right
            omega
      · rcases ih t active (out ++ [face]) x hx with h | h | h
        · exact Or.inl h
        · right; left
          obtain ⟨q, hq, hq2⟩ := h
          exact ⟨q, List.mem_cons_of_mem _ hq, hq2⟩
        · right; right
          exact h
    · simp only [processAll] at hx
      rcases hA : applyTrack t j face with ⟨t1, fo⟩
      rw [hA] at hx
      have hnext1 : t.next_track_id ≤ t1.next_track_id := by
        have h2 := (applyTrack_fields t j face).2.2.2.2.2.2
        rw [hA] at h2
        dsimp only at h2
        omega
      rcases fo with _ | f
      · dsimp only at hx
        rcases List.mem_cons.mp hx with hx | hx
        · right; left
          exact ⟨(face, some j), List.mem_cons_self _ _, by rw [hx]⟩
        · exact Or.inl hx
      · dsimp only at hx
        rcases ih t1 _ _ x hx with h | h | h
        · rcases List.mem_cons.mp h with h | h
          · right; left
            exact ⟨(face, some j), List.mem_cons_self _ _, by rw [h]⟩
          · exact Or.inl h
        · right; left
          obtain ⟨q, hq, hq2⟩ := h
          exact ⟨q, List.mem_cons_of_mem _ hq, hq2⟩
        · right; right
          omega

/-- Track keys never disappear during the loop. -/
theorem processAll_keys_mono :
    ∀ (pairs : List (Detection × Option ℕ)) (t : FaceTracker) (active : List ℕ)
      (out : List Detection) (x : ℕ),
      x ∈ t.tracks.map Prod.fst →
      x ∈ (processAll t active out pairs).1.tracks.map Prod.fst := by
  intro pairs
  induction pairs with
  | nil => intro t active out x hx; exact hx
  | cons q rest ih =>
    intro t active out x hx
    obtain ⟨face, m⟩ := q
    rcases m with _ | j
    · simp only [processAll]
      split
      · rcases hA : applyTrack (createTrack t face).1 (createTrack t face).2 face with
          ⟨t2, fo⟩
        have hx2 : x ∈ t2.tracks.map Prod.fst := by
          have h1 : x ∈ (createTrack t face).1.tracks.map Prod.fst :=
            mem_keys_setTrack hx
          have h2 := applyTrack_keys (createTrack t face).1 (createTrack t face).2 face
          rw [hA] at h2
          dsimp only at h2
          rw [h2]
          exact h1
        rcases fo with _ | f
        · exact hx2
        · exact ih t2 _ _ x hx2
      · exact ih t active (out ++ [face]) x hx
    · simp only [processAll]
      rcases hA : applyTrack t j face with ⟨t1, fo⟩
      have hx1 : x ∈ t1.tracks.map Prod.fst := by
        have h2 := applyTrack_keys t j face
        rw [hA] at h2
        dsimp only at h2
        rw [h2]
        exact hx
      rcases fo with _ | f
      · exact hx1
      · exact ih t1 _ _ x hx1

/-- On normal completion every assigned id ends up in `active_track_ids`. -/
theorem processAll_active_assigned :
    ∀ (pairs : List (Detection × Option ℕ)) (t : FaceTracker) (active : List ℕ)
      (out : List Detection) (id : ℕ),
      (processAll t active out pairs).2.2 ≠ none →
      ((∃ q ∈ pairs, q.2 = some id) ∨ id ∈ active) →
      id ∈ (processAll t active out pairs).2.1 := by
  intro pairs
  induction pairs with
  | nil =>
    intro t active out id _ h
    rcases h with ⟨q, hq, _⟩ | h
    · simp at hq
    · exact h
  | cons q rest ih =>
    intro t active out id hsucc h
    obtain ⟨face, m⟩ := q
    rcases m with _ | j
    · simp only [processAll] at hsucc ⊢
      split at hsucc
      · rename_i hlt
        rw [if_pos hlt]
        rcases hA : applyTrack (createTrack t face).1 (createTrack t face).2 face with
          ⟨t2, fo⟩
        rw [hA] at hsucc
        rcases fo with _ | f
        · exact absurd rfl hsucc
        · dsimp only at hsucc ⊢
          apply ih t2 _ _ id hsucc
          rcases h with ⟨q, hq, hq2⟩ | h
          · rcases List.mem_cons.mp hq with hq | hq
            · rw [hq] at hq2
              simp at hq2
            · exact Or.inl ⟨q, hq, hq2⟩
          · exact Or.inr (List.mem_cons_of_mem _ h)
      · rename_i hlt
        rw [if_neg hlt]
        apply ih t _ _ id hsucc
        rcases h with ⟨q, hq, hq2⟩ | h
        · rcases List.mem_cons.mp hq with hq | hq
          · rw [hq] at hq2
            simp at hq2
          · exact Or.inl ⟨q, hq, hq2⟩
        · exact Or.inr h
    · simp only [processAll] at hsucc ⊢
      rcases hA : applyTrack t j face with ⟨t1, fo⟩
      rw [hA] at hsucc
      rcases fo with _ | f
      · exact absurd rfl hsucc
      · dsimp only at hsucc ⊢
        apply ih t1 _ _ id hsucc
        rcases h with ⟨q, hq, hq2⟩ | h
        · rcases List.mem_cons.mp hq with hq | hq
          · rw [hq] at hq2
            simp only [Option.some.injEq] at hq2
            exact Or.inr (by rw [hq2]; exact List.mem_cons_self id active)
          · exact Or.inl ⟨q, hq, hq2⟩
        · exact Or.inr (List.mem_cons_of_mem _ h)

theorem match_frame_irrel (t : FaceTracker) (x : ℕ) (faces : List Detection) :
    match_faces_to_tracks { t with frame_count := x } faces =
      match_faces_to_tracks t faces := rfl

theorem zip_not_assigned (t1 : FaceTracker) (faces : List Detection) (id : ℕ)
    (h : id ∉ assignedIds (match_faces_to_tracks t1 faces)) :
    ∀ q ∈ faces.zip ((match_faces_to_tracks t1 faces).map (·.2)), q.2 ≠ some id := by
  intro q hq hc
  apply h
  obtain ⟨qa, qb⟩ := q
  have h2 : qb ∈ (match_faces_to_tracks t1 faces).map (·.2) := (List.of_mem_zip hq).2
  rw [show (qa, qb).2 = qb from rfl] at hc
  rw [hc] at h2
  obtain ⟨m, hm, hm2⟩ := List.mem_map.mp h2
  exact List.mem_filterMap.mpr ⟨m, hm, hm2⟩

theorem zip_assigned (t1 : FaceTracker) (faces : List Detection) (id : ℕ)
    (h : id ∈ assignedIds (match_faces_to_tracks t1 faces)) :
    ∃ q ∈ faces.zip ((match_faces_to_tracks t1 faces).map (·.2)), q.2 = some id := by
  obtain ⟨m, hm, hm2⟩ := List.mem_filterMap.mp h
  have hmem : some id ∈ (match_faces_to_tracks t1 faces).map (·.2) :=
    List.mem_map.mpr ⟨m, hm, hm2⟩
  have hlen : ((match_faces_to_tracks t1 faces).map (·.2)).length ≤ faces.length := by
    rw [List.length_map]
    rw [show match_faces_to_tracks t1 faces =
      matchLoop t1.iou_threshold t1.tracks [] 0 faces from rfl]
    rw [matchLoop_length]
  have hz := List.map_snd_zip faces ((match_faces_to_tracks t1 faces).map (·.2)) hlen
  rw [← hz] at hmem
  obtain ⟨q, hq, hq2⟩ := List.mem_map.mp hmem
  exact ⟨q, hq, hq2⟩

/-! ## Claim C7 -/

/-- C7: a live track survives any `update_tracks` call after which
`current_frame − last_seen ≤ max_missing_frames` would hold (and always
survives when it is matched, and always when the call raises before the
eviction phase); and on a normally completing call in which the track is
not matched and `current_frame − last_seen > max_missing_frames`, it is
removed by the end of that call.  Instantiating over successive frames: a
track last matched at frame F survives through frame
`F + max_missing_frames` and is gone after the update of frame
`F + max_missing_frames + 1`. -/
theorem C7_eviction_law (t : FaceTracker) (faces : List Detection) (id : ℕ) (tr : Track)
    (hmem : (id, tr) ∈ t.tracks) (hinv : RegInv t) :
    ((t.frame_count + 1) - tr.last_seen ≤ t.max_missing_frames ∨
      id ∈ assignedIds (match_faces_to_tracks t faces) →
      id ∈ (update_tracks t faces).1.tracks.map Prod.fst) ∧
    ((update_tracks t faces).2 ≠ none →
      id ∉ assignedIds (match_faces_to_tracks t faces) →
      t.max_missing_frames < (t.frame_count + 1) - tr.last_seen →
      id ∉ (update_tracks t faces).1.tracks.map Prod.fst) := by
  set t1 : FaceTracker := { t with frame_count := t.frame_count + 1 } with ht1
  set r := processAll t1 [] []
    (faces.zip ((match_faces_to_tracks t1 faces).map (·.2))) with hr
  have hkey := update_tracks_eq t faces t1 ht1 r hr
  have hms : match_faces_to_tracks t1 faces = match_faces_to_tracks t faces := by
    rw [ht1]
    exact match_frame_irrel t (t.frame_count + 1) faces
  have hinv1 : RegInv t1 := by
    rw [ht1]
    exact frameBump_inv t hinv
  have hinvr : RegInv r.1 := by
    rw [hr]
    exact processAll_inv _ _ [] [] hinv1
  have hcfg : SameCfg t1 r.1 := by
    rw [hr]
    exact processAll_sameCfg _ _ [] []
  have hfreshid : id < t1.next_track_id := hinv.2.1 (id, tr) hmem
  have hmem1 : (id, tr) ∈ t1.tracks := hmem
  constructor
  · intro h
    rw [hkey]
    rcases hoo : r.2.2 with _ | out
    · -- the call raised: no eviction ran, the key is still present
      have := processAll_keys_mono
        (faces.zip ((match_faces_to_tracks t1 faces).map (·.2))) t1 [] [] id
        (List.mem_map.mpr ⟨(id, tr), hmem1, rfl⟩)
      rw [← hr] at this
      exact this
    · by_cases hm : id ∈ assignedIds (match_faces_to_tracks t faces)
      · -- matched: id is in active_track_ids, the filter keeps its entry
        have hsucc : r.2.2 ≠ none := by rw [hoo]; simp
        have hact : id ∈ r.2.1 := by
          rw [hr]
          apply processAll_active_assigned _ _ [] [] id (by rw [← hr]; exact hsucc)
          left
          exact zip_assigned t1 faces id (by rwa [hms])
        have hkeys : id ∈ r.1.tracks.map Prod.fst := by
          have := processAll_keys_mono
            (faces.zip ((match_faces_to_tracks t1 faces).map (·.2))) t1 [] [] id
            (List.mem_map.mpr ⟨(id, tr), hmem1, rfl⟩)
          rw [← hr] at this
          exact this
        obtain ⟨p, hp, hpfst⟩ := List.mem_map.mp hkeys
        refine List.mem_map.mpr ⟨p, ?_, hpfst⟩
        apply List.mem_filter.mpr
        refine ⟨hp, ?_⟩
        simp only [Bool.or_eq_true]
        left
        rw [hpfst]
        exact List.elem_eq_true_of_mem hact
      · -- unmatched but recent: the untouched entry passes the filter
        have hrec : (t.frame_count + 1) - tr.last_seen ≤ t.max_missing_frames := by
          rcases h with h | h
          · exact h
          · exact absurd h hm
        have hpres : (id, tr) ∈ r.1.tracks := by
          rw [hr]
          exact processAll_mem_preserve _ t1 [] [] id tr hmem1 hfreshid
            (zip_not_assigned t1 faces id (by rwa [hms]))
        refine List.mem_map.mpr ⟨(id, tr), ?_, rfl⟩
        apply List.mem_filter.mpr
        refine ⟨hpres, ?_⟩
        simp only [Bool.or_eq_true]
        right
        apply decide_eq_true
        have hfc : r.1.frame_count = t.frame_count + 1 := hcfg.1
        have hmmf : r.1.max_missing_frames = t.max_missing_frames := hcfg.2.2.2.2.2.1
        rw [hfc, hmmf]
        exact hrec
  · intro hsucc hnotm hev
    rw [hkey] at hsucc ⊢
    rcases hoo : r.2.2 with _ | out
    · rw [hoo] at hsucc
      exact absurd rfl hsucc
    · intro hid
      obtain ⟨p, hpfil, hpfst⟩ := List.mem_map.mp hid
      obtain ⟨pk, pv⟩ := p
      rw [show (pk, pv).1 = pk from rfl] at hpfst
      rw [hpfst] at hpfil
      have hpmem : (id, pv) ∈ r.1.tracks := List.mem_of_mem_filter hpfil
      have hpres : (id, tr) ∈ r.1.tracks := by
        rw [hr]
        exact processAll_mem_preserve _ t1 [] [] id tr hmem1 hfreshid
          (zip_not_assigned t1 faces id (by rwa [hms]))
      have hveq : pv = tr := nodup_keys_eq hinvr.2.2.1 hpmem hpres
      have hpred := (List.mem_filter.mp hpfil).2
      simp only [Bool.or_eq_true] at hpred
      rcases hpred with hc | hc
      · -- id would have to be active, but it was neither assigned nor created
        have hact : id ∈ r.2.1 := by
          have := List.mem_of_elem_eq_true hc
          exact this
        have := processAll_active_sub
          (faces.zip ((match_faces_to_tracks t1 faces).map (·.2))) t1 [] [] id
          (by rw [← hr]; exact hact)
        rcases this with h | ⟨q, hq, hq2⟩ | h
        · simp at h
        · exact zip_not_assigned t1 faces id (by rwa [hms]) q hq hq2
        · omega
      · -- otherwise the recency test would contradict the eviction premise
        have := of_decide_eq_true hc
        rw [hveq] at this
        have hfc : r.1.frame_count = t.frame_count + 1 := hcfg.1
        have hmmf : r.1.max_missing_frames = t.max_missing_frames := hcfg.2.2.2.2.2.1
        rw [hfc, hmmf] at this
        omega

/-- A one-track registry whose track was seen at frame 1, now at frame 1
(retention scenario: next update is frame 2, gap 1 ≤ max_missing 1). -/
def c7retain : FaceTracker :=
  { max_tracks := 3
    max_age_history := 10
    max_emotion_history := 5
    iou_threshold := 3 / 10
    max_missing_frames := 1
    tracks := [(0, ⟨[], [], [10, 10, 50, 50], 1, 1⟩)]
    next_track_id := 1
    frame_count := 1 }

/-- The same registry at frame 3 (eviction scenario: next update is frame
4, gap 3 > max_missing 1). -/
def c7evict : FaceTracker :=
  { c7retain with frame_count := 3 }

theorem C7_eviction_law_witness :
    0 ∈ (update_tracks c7retain []).1.tracks.map Prod.fst ∧
    0 ∉ (update_tracks c7evict []).1.tracks.map Prod.fst :=
  ⟨(C7_eviction_law c7retain [] 0 ⟨[], [], [10, 10, 50, 50], 1, 1⟩
      (by simp [c7retain]) (by norm_num [RegInv, c7retain])).1
    (Or.inl (by norm_num [c7retain])),
   (C7_eviction_law c7evict [] 0 ⟨[], [], [10, 10, 50, 50], 1, 1⟩
      (by simp [c7evict, c7retain]) (by norm_num [RegInv, c7evict, c7retain])).2
    (by simp [update_tracks, match_faces_to_tracks, matchLoop, processAll,
      removeStale, c7evict, c7retain, List.zip, List.zipWith])
    (by simp [match_faces_to_tracks, matchLoop, assignedIds])
    (by norm_num [c7evict, c7retain])⟩

/-! ## Output shape of the loop -/

/-- On normal completion the loop appends exactly one output detection per
pair, in order, and a pair that was unmatched while the registry held at
least `max_tracks` live tracks contributes its input detection unchanged. -/
theorem processAll_output :
    ∀ (pairs : List (Detection × Option ℕ)) (t : FaceTracker) (active : List ℕ)
      (out res : List Detection),
      (processAll t active out pairs).2.2 = some res →
      ∃ res', res = out ++ res' ∧ res'.length = pairs.length ∧
        ∀ i (hi : i < pairs.length), pairs[i].2 = none →
          (processAll t active out (pairs.take i)).1.max_tracks ≤
            (processAll t active out (pairs.take i)).1.tracks.length →
          res'[i]? = some pairs[i].1 := by
  intro pairs
  induction pairs with
  | nil =>
    intro t active out res h
    simp only [processAll, Option.some.injEq] at h
    refine ⟨[], by rw [← h, List.append_nil], rfl, ?_⟩
    intro i hi
    simp at hi
  | cons q rest ih =>
    intro t active out res h
    obtain ⟨face, m⟩ := q
    rcases m with _ | j
    · simp only [processAll] at h
      split at h
      · rename_i hlt
        rcases hA : applyTrack (createTrack t face).1 (createTrack t face).2 face with
          ⟨t2, fo⟩
        rw [hA] at h
        rcases fo with _ | f
        · simp at h
        · dsimp only at h
          obtain ⟨res'', heq, hlen, hpass⟩ := ih t2 _ _ res h
          refine ⟨f :: res'', by rw [heq]; simp, by simp [hlen], ?_⟩
          intro i hi hnone hfull
          rcases i with _ | i
          · exfalso
            simp only [List.take_zero, processAll] at hfull
            omega
          · simp only [List.getElem_cons_succ] at hnone ⊢
            simp only [List.take_succ_cons, processAll] at hfull
            rw [if_pos hlt] at hfull
            rw [hA] at hfull
            dsimp only at hfull
            rw [List.getElem?_cons_succ]
            exact hpass i (by simpa using Nat.lt_of_succ_lt_succ hi) hnone hfull
      · rename_i hlt
        obtain ⟨res'', heq, hlen, hpass⟩ := ih t active (out ++ [face]) res h
        refine ⟨face :: res'', by rw [heq]; simp, by simp [hlen], ?_⟩
        intro i hi hnone hfull
        rcases i with _ | i
        · simp
        · simp only [List.getElem_cons_succ] at hnone ⊢
          simp only [List.take_succ_cons, processAll] at hfull
          rw [if_neg hlt] at hfull
          rw [List.getElem?_cons_succ]
          exact hpass i (by simpa using Nat.lt_of_succ_lt_succ hi) hnone hfull
    · simp only [processAll] at h
      rcases hA : applyTrack t j face with ⟨t1, fo⟩
      rw [hA] at h
      rcases fo with _ | f
      · simp at h
      · dsimp only at h
        obtain ⟨res'', heq, hlen, hpass⟩ := ih t1 _ _ res h
        refine ⟨f :: res'', by rw [heq]; simp, by simp [hlen], ?_⟩
        intro i hi hnone hfull
        rcases i with _ | i
        · simp at hnone
        · simp only [List.getElem_cons_succ] at hnone ⊢
          simp only [List.take_succ_cons, processAll] at hfull
          rw [hA] at hfull
          dsimp only at hfull
          rw [List.getElem?_cons_succ]
          exact hpass i (by simpa using Nat.lt_of_succ_lt_succ hi) hnone hfull

theorem midState_eq (t : FaceTracker) (faces : List Detection) (i : ℕ)
    (t1 : FaceTracker) (ht1 : t1 = { t with frame_count := t.frame_count + 1 }) :
    midState t faces i =
      (processAll t1 [] []
        ((faces.zip ((match_faces_to_tracks t1 faces).map (·.2))).take i)).1 := by
  subst ht1
  rfl

/-! ## Claim C8 -/

/-- C8: on a normally completing call the returned list has exactly the
length and order of the input detection list, and a detection the matcher
left unmatched while the registry already held `max_tracks` live tracks is
returned as the very same record — no `track_id` field, no `track_age`
field, no smoothing of any field. -/
theorem C8_passthrough (t : FaceTracker) (faces : List Detection)
    (out : List Detection) (h : (update_tracks t faces).2 = some out) :
    out.length = faces.length ∧
    ∀ i (hi : i < faces.length) (hm : i < (match_faces_to_tracks t faces).length),
      (match_faces_to_tracks t faces)[i].2 = none →
      t.max_tracks ≤ (midState t faces i).tracks.length →
      out[i]? = some faces[i] := by
  set t1 : FaceTracker := { t with frame_count := t.frame_count + 1 } with ht1
  set r := processAll t1 [] []
    (faces.zip ((match_faces_to_tracks t1 faces).map (·.2))) with hr
  have hkey := update_tracks_eq t faces t1 ht1 r hr
  have hms : match_faces_to_tracks t1 faces = match_faces_to_tracks t faces := by
    rw [ht1]
    exact match_frame_irrel t (t.frame_count + 1) faces
  have hmslen : (match_faces_to_tracks t1 faces).length = faces.length := by
    rw [show match_faces_to_tracks t1 faces =
      matchLoop t1.iou_threshold t1.tracks [] 0 faces from rfl]
    exact matchLoop_length _ _ faces [] 0
  have hplen : (faces.zip ((match_faces_to_tracks t1 faces).map (·.2))).length =
      faces.length := by
    rw [List.length_zip, List.length_map, hmslen, min_self]
  rw [hkey] at h
  rcases hoo : r.2.2 with _ | o
  · rw [hoo] at h
    simp at h
  · rw [hoo] at h
    simp only [Option.some.injEq] at h
    have hro : r.2.2 = some out := by rw [hoo, h]
    obtain ⟨res', heq, hlen, hpass⟩ := processAll_output
      (faces.zip ((match_faces_to_tracks t1 faces).map (·.2))) t1 [] [] out
      (by rw [← hr]; exact hro)
    have hout : out = res' := by simpa using heq
    constructor
    · rw [hout, hlen, hplen]
    · intro i hi hm hnone hfull
      have hip : i < (faces.zip ((match_faces_to_tracks t1 faces).map (·.2))).length := by
        rw [hplen]
        exact hi
      have hz : (faces.zip ((match_faces_to_tracks t1 faces).map (·.2)))[i] =
          (faces[i], (match_faces_to_tracks t1 faces)[i].2) := by
        rw [List.getElem_zip]
        congr 1
        rw [List.getElem_map]
      have hnone' : (faces.zip ((match_faces_to_tracks t1 faces).map (·.2)))[i].2 = none := by
        rw [hz]
        exact hnone
      have hfull' : (processAll t1 [] []
          ((faces.zip ((match_faces_to_tracks t1 faces).map (·.2))).take i)).1.max_tracks ≤
          (processAll t1 [] []
          ((faces.zip ((match_faces_to_tracks t1 faces).map (·.2))).take i)).1.tracks.length := by
        have hmid := midState_eq t faces i t1 ht1
        have hmt : (processAll t1 [] []
            ((faces.zip ((match_faces_to_tracks t1 faces).map (·.2))).take i)).1.max_tracks =
            t.max_tracks := by
          have := (processAll_sameCfg
            ((faces.zip ((match_faces_to_tracks t1 faces).map (·.2))).take i) t1 [] []).2.1
          rw [this]
        rw [hmt, ← hmid]
        exact hfull
      have := hpass i hip hnone' hfull'
      rw [hout]
      rw [this, hz]

/-- A detection overlapping no live track. -/
def c8det : Detection := { bbox := some [400, 400, 20, 20] }

theorem C8_passthrough_witness :
    ([c8det] : List Detection)[0]? = some c8det := by
  have h : (update_tracks c5tracker [c8det]).2 = some [c8det] := by
    norm_num [update_tracks, match_faces_to_tracks, matchLoop, bestTrack,
      calculate_iou, toQuad, iouCore, processAll, removeStale, c5tracker, c8det,
      defaultBBox, List.zip, List.zipWith]
  exact (C8_passthrough c5tracker [c8det] [c8det] h).2 0 (by norm_num)
    (by norm_num [match_faces_to_tracks, matchLoop, bestTrack, calculate_iou,
      toQuad, iouCore, c5tracker, c8det, defaultBBox])
    (by norm_num [match_faces_to_tracks, matchLoop, bestTrack, calculate_iou,
      toQuad, iouCore, c5tracker, c8det, defaultBBox])
    (by norm_num [midState, processAll, c5tracker, c8det])

end FaceTrackerModel
